import Mathlib

/-!
# Verification of the antigravity-client reactive core

Shallow embedding of the schema-driven diff applier (`src/reactive/apply.ts`),
the event deriver (`src/cascade.ts`), and the stream-reconnect loop
(`Cascade.listen`), together with proofs settling the specification claims.

Conventions:
* JavaScript in-place mutation is modelled functionally: every function that
  mutates its target returns the new value.
* A JavaScript exception (the code can throw a `TypeError` when it reads a
  property of `undefined`) is modelled with `Except String`.
* JavaScript numbers are modelled as `Int`; the applier copies numeric wire
  values without performing arithmetic on them, so the numeric representation
  is opaque to everything proved here.
-/

namespace AntigravityClient

/-- A JavaScript runtime value as manipulated by `reactive/apply.ts`.
`undef` is JavaScript `undefined` (also used for holes in arrays, which the
applier creates by pushing `undefined` placeholders).  `oneofV c v` is the
protobuf-es oneof representation `{case: c, value: v}`.  Objects keep field
insertion order, which is what a JS object does. -/
inductive JSVal where
  | undef
  | num (n : Int)
  | str (s : String)
  | boolVal (b : Bool)
  | bytes (bs : List Nat)
  | obj (fields : List (String × JSVal))
  | arrV (elems : List JSVal)
  | oneofV (c : String) (v : JSVal)

mutual
/-- Schema metadata for one message type: `MessageType` of protobuf-es,
restricted to the members `apply.ts` reads (`typeName`, `fields`). -/
inductive PMessageType where
  | mk (typeName : String) (fields : List PFieldInfo)

/-- Schema metadata for one field: the members of protobuf-es `FieldInfo`
read by `apply.ts` (`no`, `localName`, `kind`/`T`/`V`, `oneof`). -/
inductive PFieldInfo where
  | mk (number : Nat) (localName : String) (kind : PFieldKind) (oneofName : Option String)

/-- The field kind together with the nested type reference `T` (for message
fields) or `V` (for map fields), as `apply.ts` consumes them. -/
inductive PFieldKind where
  | scalarK
  | enumK
  | messageK (t : PMessageType)
  | mapK (valueKind : PMapValueKind)

/-- The value-kind entry `field.V` of a map field. -/
inductive PMapValueKind where
  | vScalar
  | vEnum
  | vMessage (t : PMessageType)
end

def PMessageType.fields : PMessageType → List PFieldInfo
  | .mk _ fs => fs

def PMessageType.typeName : PMessageType → String
  | .mk n _ => n

def PFieldInfo.number : PFieldInfo → Nat
  | .mk n _ _ _ => n

def PFieldInfo.localName : PFieldInfo → String
  | .mk _ l _ _ => l

def PFieldInfo.kind : PFieldInfo → PFieldKind
  | .mk _ _ k _ => k

def PFieldInfo.oneofName : PFieldInfo → Option String
  | .mk _ _ _ o => o

mutual
/-- Wire-level `MessageDiff`: a list of per-field operations. -/
inductive MessageDiff where
  | mk (fieldDiffs : List FieldDiff)

/-- Wire-level `FieldDiff`: a field number plus the operation oneof. -/
inductive FieldDiff where
  | mk (fieldNumber : Nat) (diff : FieldDiffOp)

/-- The operation oneof of a `FieldDiff` (also reused as the per-key oneof of
a `MapKeyDiff`, which carries the same case names the code switches on). -/
inductive FieldDiffOp where
  | updateSingular (v : SingularValue)
  | updateRepeated (rd : RepeatedDiff)
  | updateMap (md : MapDiff)
  | clear (explicit : Bool)

/-- Wire-level `SingularValue`.  `unset` models a `SingularValue` message whose
`value` oneof is not set (`!sv.value`).  All twelve numeric wire cases are kept
separate, as in the source switch; their payloads are opaque to the applier. -/
inductive SingularValue where
  | unset
  | doubleValue (n : Int)
  | floatValue (n : Int)
  | int32Value (n : Int)
  | int64Value (n : Int)
  | uint32Value (n : Int)
  | uint64Value (n : Int)
  | sint32Value (n : Int)
  | sint64Value (n : Int)
  | fixed32Value (n : Int)
  | fixed64Value (n : Int)
  | sfixed32Value (n : Int)
  | sfixed64Value (n : Int)
  | boolValue (b : Bool)
  | enumValue (n : Int)
  | stringValue (s : String)
  | bytesValue (bs : List Nat)
  | messageValue (d : MessageDiff)

/-- Wire-level `RepeatedDiff`: optional new length plus sparse index/value
update lists. -/
inductive RepeatedDiff where
  | mk (newLength : Option Nat) (updateIndices : List Nat) (updateValues : List SingularValue)

/-- Wire-level `MapDiff`. -/
inductive MapDiff where
  | mk (mapKeyDiffs : List MapKeyDiff)

/-- Wire-level `MapKeyDiff`: an optional key plus a per-key operation. -/
inductive MapKeyDiff where
  | mk (mapKey : Option SingularValue) (diff : FieldDiffOp)
end

def MessageDiff.fieldDiffs : MessageDiff → List FieldDiff
  | .mk fds => fds

def RepeatedDiff.newLength : RepeatedDiff → Option Nat
  | .mk n _ _ => n

def RepeatedDiff.updateIndices : RepeatedDiff → List Nat
  | .mk _ is _ => is

def RepeatedDiff.updateValues : RepeatedDiff → List SingularValue
  | .mk _ _ vs => vs

/-- Association-list lookup; a missing key reads as `undefined`. -/
def lookupField : List (String × JSVal) → String → JSVal
  | [], _ => .undef
  | (k, v) :: rest, key => if k = key then v else lookupField rest key

/-- Property read `target[key]`.  On a non-object this returns `undefined`
(JavaScript boxes primitives on property access; the applier never reads a
property of `undefined` itself because every call site guards for truthiness
first). -/
def getField : JSVal → String → JSVal
  | .obj fs, key => lookupField fs key
  | _, _ => JSVal.undef

/-- Association-list update preserving insertion order (JS object
assignment semantics: existing key keeps its slot, new key appended). -/
def setAssoc : List (String × JSVal) → String → JSVal → List (String × JSVal)
  | [], key, v => [(key, v)]
  | (k, w) :: rest, key, v =>
      if k = key then (k, v) :: rest else (k, w) :: setAssoc rest key v

/-- Property write `target[key] = v`.  The file is an ES module (strict mode),
so assigning a property to a non-object value throws a `TypeError`. -/
def setFieldE : JSVal → String → JSVal → Except String JSVal
  | .obj fs, key, v => .ok (.obj (setAssoc fs key v))
  | _, _, _ => .error "TypeError: cannot set property of non-object"

/-- JavaScript truthiness of the values in our model. -/
def truthy : JSVal → Bool
  | .undef => false
  | .num n => !(n == 0)
  | .str s => !(s == "")
  | .boolVal b => b
  | _ => true

/-- JavaScript `String(v)`, used for map keys (map keys are scalar values). -/
def jsToString : JSVal → String
  | .undef => "undefined"
  | .num n => toString n
  | .str s => s
  | .boolVal b => if b then "true" else "false"
  | _ => "[object]"

/-- `delete map[key]`. -/
def removeAssoc : List (String × JSVal) → String → List (String × JSVal)
  | [], _ => []
  | (k, w) :: rest, key => if k = key then rest else (k, w) :: removeAssoc rest key

/-- Array write `arr[idx] = v`: within bounds it replaces, past the end it
extends the array, filling the gap with `undefined` holes. -/
def listSetSparse (l : List JSVal) (idx : Nat) (v : JSVal) : List JSVal :=
  if idx < l.length then l.set idx v
  else l ++ List.replicate (idx - l.length) .undef ++ [v]

/-- The pseudo-field `{kind: "scalar", T: field.K}` the source constructs to
extract a map key. -/
def mapKeyPseudoField : PFieldInfo :=
  .mk 0 "map_key_pseudo" .scalarK none

/-- The pseudo-field the source constructs for a map value
(`{kind: field.V.kind, T: field.V.T, name: "map_value_pseudo"}`). -/
def mapValueFieldInfo : PMapValueKind → PFieldInfo
  | .vScalar => .mk 0 "map_value_pseudo" .scalarK none
  | .vEnum => .mk 0 "map_value_pseudo" .enumK none
  | .vMessage t => .mk 0 "map_value_pseudo" (.messageK t) none

mutual
/-- Embedding of `applyMessageDiff` (`src/reactive/apply.ts`): applies every
field diff in order.  (`if (!diff.fieldDiffs) return` never fires for a real
message, whose repeated field defaults to `[]`; the empty list case of
`applyFieldDiffList` covers it.) -/
def applyMessageDiff (target : JSVal) (diff : MessageDiff) (type : PMessageType) :
    Except String JSVal :=
  match diff with
  | .mk fieldDiffs => applyFieldDiffList target fieldDiffs type

/-- The `for (const fieldDiff of diff.fieldDiffs)` loop of `applyMessageDiff`. -/
def applyFieldDiffList (target : JSVal) (fds : List FieldDiff) (type : PMessageType) :
    Except String JSVal :=
  match fds with
  | [] => .ok target
  | fd :: rest => do
      let target' ← applyFieldDiff target fd type
      applyFieldDiffList target' rest type

/-- Embedding of `applyFieldDiff`: look the field up by number (unknown numbers
are logged and skipped), compute the existing value (oneof-aware), then
dispatch on the operation case.  The final write goes to the oneof group
`{case, value}` slot when the field belongs to a oneof, else to the field's
local name. -/
def applyFieldDiff (target : JSVal) (fd : FieldDiff) (type : PMessageType) :
    Except String JSVal :=
  match fd with
  | .mk fieldNumber dop =>
    match type.fields.find? (fun f => f.number == fieldNumber) with
    | none => .ok target
    | some field =>
      let existingValue : JSVal :=
        match field.oneofName with
        | some g =>
            match getField target g with
            | .oneofV c v => if c = field.localName then v else .undef
            | _ => .undef
        | none => getField target field.localName
      match dop with
      | .updateSingular sv => do
          let value ← extractSingularValue sv field existingValue
          match field.oneofName with
          | some g => setFieldE target g (.oneofV field.localName value)
          | none => setFieldE target field.localName value
      | .updateRepeated rd => applyRepeatedDiff target field.localName rd field
      | .updateMap md => applyMapDiff target field.localName md field
      | .clear b =>
          if b then
            match field.oneofName with
            | some g => setFieldE target g (.oneofV field.localName .undef)
            | none => setFieldE target field.localName .undef
          else .ok target

/-- Embedding of `extractSingularValue`.  Every non-message wire case returns
its payload unchanged; a message value recurses, reusing a truthy existing
value and otherwise starting from a fresh instance (`new subType()`, whose
proto3 zero-valued fields are left implicit here: the readers in `cascade.ts`
treat an absent field and its zero value alike, via `|| ""` style accesses). -/
def extractSingularValue (sv : SingularValue) (field : PFieldInfo) (existingValue : JSVal) :
    Except String JSVal :=
  match sv with
  | .unset => .ok .undef
  | .doubleValue n => .ok (.num n)
  | .floatValue n => .ok (.num n)
  | .int32Value n => .ok (.num n)
  | .int64Value n => .ok (.num n)
  | .uint32Value n => .ok (.num n)
  | .uint64Value n => .ok (.num n)
  | .sint32Value n => .ok (.num n)
  | .sint64Value n => .ok (.num n)
  | .fixed32Value n => .ok (.num n)
  | .fixed64Value n => .ok (.num n)
  | .sfixed32Value n => .ok (.num n)
  | .sfixed64Value n => .ok (.num n)
  | .boolValue b => .ok (.boolVal b)
  | .enumValue n => .ok (.num n)
  | .stringValue s => .ok (.str s)
  | .bytesValue bs => .ok (.bytes bs)
  | .messageValue d =>
      match field.kind with
      | .messageK subType =>
          let subObj := if truthy existingValue then existingValue else JSVal.obj []
          applyMessageDiff subObj d subType
      | _ => .ok JSVal.undef

/-- Embedding of `applyRepeatedDiff`: coerce the slot to an array, resize to
`newLength` when present (truncate trailing / pad with `undefined`), then apply
the sparse index/value pairs, and write the array back.  (The source guard
`if (rd.updateIndices && rd.updateValues)` is always true: protobuf-es repeated
fields default to `[]`, and arrays are truthy.) -/
def applyRepeatedDiff (target : JSVal) (localName : String) (rd : RepeatedDiff)
    (field : PFieldInfo) : Except String JSVal :=
  match rd with
  | .mk newLength updateIndices updateValues =>
    let arr0 : List JSVal :=
      match getField target localName with
      | .arrV l => l
      | _ => []
    let arr1 : List JSVal :=
      match newLength with
      | none => arr0
      | some n =>
          if arr0.length > n then arr0.take n
          else arr0 ++ List.replicate (n - arr0.length) .undef
    do
      let arr2 ← applyRepeatedPairs arr1 updateIndices updateValues field
      setFieldE target localName (.arrV arr2)

/-- The `for (let i = 0; i < rd.updateIndices.length; i++)` loop of
`applyRepeatedDiff`, walking both lists in lockstep.  When the index list is
longer than the value list, `rd.updateValues[i]` is `undefined` and the call
`extractSingularValue(undefined, ...)` dereferences `sv.value`, throwing a
`TypeError`; extra values beyond the index list are never visited.  Message
elements pass the existing element for in-place reuse. -/
def applyRepeatedPairs (arr : List JSVal) (idxs : List Nat) (vals : List SingularValue)
    (field : PFieldInfo) : Except String (List JSVal) :=
  match idxs, vals with
  | [], _ => .ok arr
  | _ :: _, [] => .error "TypeError: cannot read value of undefined"
  | idx :: restIdx, v :: restVals => do
      let newVal ←
        match field.kind with
        | .messageK _ => extractSingularValue v field (arr.getD idx .undef)
        | _ => extractSingularValue v field .undef
      applyRepeatedPairs (listSetSparse arr idx newVal) restIdx restVals field

/-- Embedding of `applyMapDiff`: only acts on map-kind fields; coerces the slot
to an object, then processes each key diff. -/
def applyMapDiff (target : JSVal) (localName : String) (md : MapDiff)
    (field : PFieldInfo) : Except String JSVal :=
  match field.kind with
  | .mapK valueKind =>
    match md with
    | .mk keyDiffs =>
      let map0 : List (String × JSVal) :=
        match getField target localName with
        | .obj fs => fs
        | _ => []
      do
        let map1 ← applyMapKeyDiffs map0 keyDiffs valueKind
        setFieldE target localName (.obj map1)
  | _ => .ok target

/-- The `for (const keyDiff of md.mapKeyDiffs)` loop: skip an absent key,
stringify the extracted key, then either merge/replace the entry
(`updateSingular`, with the existing entry passed for message merge) or remove
it (`clear` with explicit flag); other operation cases fall through. -/
def applyMapKeyDiffs (m : List (String × JSVal)) (kds : List MapKeyDiff)
    (valueKind : PMapValueKind) : Except String (List (String × JSVal)) :=
  match kds with
  | [] => .ok m
  | .mk mapKey dop :: rest =>
      match mapKey with
      | none => applyMapKeyDiffs m rest valueKind
      | some k => do
        let keyVal ← extractSingularValue k mapKeyPseudoField .undef
        let key := jsToString keyVal
        let m' ←
          match dop with
          | .updateSingular v => do
              let newV ← extractSingularValue v (mapValueFieldInfo valueKind) (lookupField m key)
              pure (setAssoc m key newV)
          | .clear b => pure (if b then removeAssoc m key else m)
          | _ => pure m
        applyMapKeyDiffs m' rest valueKind
end

/-! ## Typed session model and event deriver (`src/cascade.ts`, `src/types.ts`)

The enums and message shapes referenced here come from the generated protobuf
modules under `src/gen/`, which are not part of the sources; they are modelled
with exactly the members that `cascade.ts` and `types.ts` read, used
symbolically (no wire numbering is needed by the deriver). -/

/-- The `CortexStepStatus` enum, with the named values `types.ts` switches on. -/
inductive CortexStepStatus where
  | unspecified | generating | queued | pending | running | waiting
  | done | invalid | cleared | canceled | error | interrupted
deriving DecidableEq, Repr

/-- The `CascadeRunStatus` enum. -/
inductive CascadeRunStatus where
  | unspecified | idle | running | canceling | busy
deriving DecidableEq, Repr

/-- `toStepStatus` (`src/types.ts`). -/
def toStepStatus : CortexStepStatus → String
  | .unspecified => "unspecified"
  | .generating => "generating"
  | .queued => "queued"
  | .pending => "pending"
  | .running => "running"
  | .waiting => "waiting"
  | .done => "done"
  | .invalid => "invalid"
  | .cleared => "cleared"
  | .canceled => "canceled"
  | .error => "error"
  | .interrupted => "interrupted"

/-- `toRunStatus` (`src/types.ts`). -/
def toRunStatus : CascadeRunStatus → String
  | .unspecified => "unspecified"
  | .idle => "idle"
  | .running => "running"
  | .canceling => "canceling"
  | .busy => "busy"

/-- The fields of `CortexStepRunCommand` read by `cascade.ts`
(proto3 defaults: empty string / false). -/
structure RunCommandPayload where
  commandLine : String := ""
  proposedCommandLine : String := ""
  shouldAutoRun : Bool := false
  stdout : String := ""
  stderr : String := ""
deriving DecidableEq, Repr

/-- The fields of `CortexStepPlannerResponse` read by `cascade.ts`. -/
structure PlannerResponsePayload where
  response : String := ""
  modifiedResponse : String := ""
  thinking : String := ""
deriving DecidableEq, Repr

/-- A file-permission specification (`FilePermissionInteractionSpec`): the two
fields the approval builders read. -/
structure FilePermissionSpec where
  absolutePathUri : String := ""
  isDirectory : Bool := false
deriving DecidableEq, Repr

/-- The `Step.step` payload oneof, restricted to the cases whose contents
`cascade.ts` inspects: `runCommand` and `plannerResponse` field access,
`openBrowserUrl`'s `url`, and for every other case its case name together with
a possible inline `filePermissionRequest` field (the second, inline encoding
of file-permission requests; `CortexStepRunCommand` and
`CortexStepPlannerResponse` have no such field). -/
inductive StepPayload where
  | runCommand (rc : RunCommandPayload)
  | plannerResponse (pr : PlannerResponsePayload)
  | openBrowserUrl (url : String)
  | otherCase (name : String) (filePermissionRequest : Option FilePermissionSpec)
deriving DecidableEq, Repr

/-- The `RequestedInteraction.interaction` oneof cases dispatched by
`buildApprovalRequest`; any case not matched there falls to `otherInteraction`.
`none` at the use sites models both an absent `requestedInteraction` message
and one whose `interaction` oneof is unset (`!step.requestedInteraction?.interaction?.case`
collapses the two). -/
inductive InteractionCase where
  | runCommand
  | filePermission (spec : FilePermissionSpec)
  | openBrowserUrl
  | executeBrowserJavascript
  | captureBrowserScreenshot
  | clickBrowserPixel
  | browserAction
  | openBrowserSetup
  | confirmBrowserSetup
  | sendCommandInput
  | mcp
  | otherInteraction (name : String)
deriving DecidableEq, Repr

/-- The TypeScript case-name string of an interaction case (used in the
`browser_action` and `other` descriptions). -/
def interactionCaseName : InteractionCase → String
  | .runCommand => "runCommand"
  | .filePermission _ => "filePermission"
  | .openBrowserUrl => "openBrowserUrl"
  | .executeBrowserJavascript => "executeBrowserJavascript"
  | .captureBrowserScreenshot => "captureBrowserScreenshot"
  | .clickBrowserPixel => "clickBrowserPixel"
  | .browserAction => "browserAction"
  | .openBrowserSetup => "openBrowserSetup"
  | .confirmBrowserSetup => "confirmBrowserSetup"
  | .sendCommandInput => "sendCommandInput"
  | .mcp => "mcp"
  | .otherInteraction name => name

/-- One trajectory step (`gemini_coder.Step`), restricted to the three members
`cascade.ts` reads: `status`, the `step` payload oneof, and
`requestedInteraction`. -/
structure Step where
  status : CortexStepStatus := .unspecified
  step : Option StepPayload := none
  requestedInteraction : Option InteractionCase := none
deriving DecidableEq, Repr

/-- `gemini_coder.Trajectory`, restricted to `trajectoryId` and `steps`.
Elements are `Option Step` because the diff applier can pad the array with
`undefined` placeholders, which every `forEach` in `cascade.ts` guards for. -/
structure Trajectory where
  trajectoryId : String := ""
  steps : List (Option Step) := []
deriving DecidableEq, Repr

/-- `exa.jetski_cortex_pb.CascadeState`, restricted to `status` and
`trajectory`. -/
structure CascadeState where
  status : CascadeRunStatus := .unspecified
  trajectory : Option Trajectory := none
deriving DecidableEq, Repr

/-- `(step as any).runCommand || (step.step?.case === "runCommand" ? step.step.value : null)`:
a protobuf-es `Step` instance has no own `runCommand` property (the payload
lives under the `step` oneof), so the first disjunct is always `undefined` and
the oneof check decides. -/
def payloadRunCommand (s : Step) : Option RunCommandPayload :=
  match s.step with
  | some (.runCommand rc) => some rc
  | _ => none

/-- `(step.step?.value as any)?.filePermissionRequest`: the inline
file-permission field on the step payload. -/
def payloadFilePermissionRequest (s : Step) : Option FilePermissionSpec :=
  match s.step with
  | some (.otherCase _ fpr) => fpr
  | _ => none

/-- `planner.modifiedResponse || planner.response || ""`: the response-text
channel prefers a non-empty `modifiedResponse` over `response`. -/
def plannerResponseText (pr : PlannerResponsePayload) : String :=
  if pr.modifiedResponse ≠ "" then pr.modifiedResponse else pr.response

/-- The typed consumer-facing events of the deriver.  `approve`/`deny`
callbacks and the raw step object carried by the real events are I/O
capabilities outside the model; each constructor keeps the data the claims
observe.  The legacy `text` / `thinking` / `interaction` emissions duplicate
`textDelta` / `thinkingDelta` / `approvalNeeded` at the same program points
and are not modelled separately; `update` and `raw_update` carry no derived
data. -/
inductive Event where
  | stepNew (stepIndex : Nat) (status : String)
  | stepUpdate (stepIndex : Nat) (previousStatus : String) (status : String)
  | textDelta (delta : String) (fullText : String) (stepIndex : Nat)
  | thinkingDelta (delta : String) (fullText : String) (stepIndex : Nat)
  | commandOutput (delta : String) (text : String) (outputType : String) (stepIndex : Nat)
  | statusChange (status : String) (previousStatus : String)
  | approvalNeeded (kind : String) (description : String) (stepIndex : Nat)
      (autoRun : Bool) (needsApproval : Bool)
  | doneEvent
deriving DecidableEq, Repr

/-- The per-session tracking state: the private mutable fields of `Cascade`
read and written by the deriver.  The `Record<number, string>` maps are read
with an `|| ""` default, modelled as total functions; `_stepStatusMap` is a
`Map` (absent key reads as `undefined`), and `emittedInteractions` a `Set`. -/
structure Tracking where
  lastEmittedText : Nat → String
  lastEmittedThinking : Nat → String
  lastEmittedStdout : Nat → String
  lastEmittedStderr : Nat → String
  emittedInteractions : Nat → Bool
  lastStatus : CascadeRunStatus
  lastStepCount : Nat
  stepStatusMap : Nat → Option CortexStepStatus
  lastCascadeStatus : CascadeRunStatus

/-- The field initializers of a fresh `Cascade`. -/
def initialTracking : Tracking where
  lastEmittedText := fun _ => ""
  lastEmittedThinking := fun _ => ""
  lastEmittedStdout := fun _ => ""
  lastEmittedStderr := fun _ => ""
  emittedInteractions := fun _ => false
  lastStatus := .unspecified
  lastStepCount := 0
  stepStatusMap := fun _ => none
  lastCascadeStatus := .unspecified

/-- `emitStatusChange`: the legacy `done` emission on a transition into IDLE,
then the `status_change` emission on any change of the run status. -/
def emitStatusChange (s : CascadeState) (t : Tracking) : List Event × Tracking :=
  let currentStatus := s.status
  let doneEvents : List Event :=
    if currentStatus = .idle ∧ t.lastStatus ≠ .idle then [.doneEvent] else []
  let t1 := { t with lastStatus := currentStatus }
  if currentStatus ≠ t1.lastCascadeStatus then
    (doneEvents ++ [.statusChange (toRunStatus currentStatus) (toRunStatus t1.lastCascadeStatus)],
     { t1 with lastCascadeStatus := currentStatus })
  else (doneEvents, t1)

/-- The `for (let i = this._lastStepCount; i < steps.length; i++)` loop of
`emitStepEvents`: emit `step:new` for each present new step and cache its
status (`if (!step) continue` skips holes). -/
def newStepsLoop : List (Option Step) → Nat → (Nat → Option CortexStepStatus) →
    List Event × (Nat → Option CortexStepStatus)
  | [], _, m => ([], m)
  | none :: rest, i, m => newStepsLoop rest (i + 1) m
  | some st :: rest, i, m =>
      let m1 := Function.update m i (some st.status)
      let (evs, m2) := newStepsLoop rest (i + 1) m1
      (.stepNew i (toStepStatus st.status) :: evs, m2)

/-- The `steps.forEach` status-comparison loop of `emitStepEvents`: emit
`step:update` when the cached status differs, then refresh the cache
(untracked indices produce no update). -/
def stepUpdateLoop : List (Option Step) → Nat → Tracking → List Event × Tracking
  | [], _, t => ([], t)
  | none :: rest, i, t => stepUpdateLoop rest (i + 1) t
  | some st :: rest, i, t =>
      let evs : List Event :=
        match t.stepStatusMap i with
        | some prev =>
            if prev ≠ st.status then
              [.stepUpdate i (toStepStatus prev) (toStepStatus st.status)]
            else []
        | none => []
      let t1 := { t with stepStatusMap := Function.update t.stepStatusMap i (some st.status) }
      let (evs2, t2) := stepUpdateLoop rest (i + 1) t1
      (evs ++ evs2, t2)

/-- `emitStepEvents`: new-step detection (advancing `_lastStepCount`) followed
by the status-change pass over all steps. -/
def emitStepEvents (steps : List (Option Step)) (t : Tracking) : List Event × Tracking :=
  let (newEvs, t1) :=
    if steps.length > t.lastStepCount then
      let (evs, m) := newStepsLoop (steps.drop t.lastStepCount) t.lastStepCount t.stepStatusMap
      (evs, { t with stepStatusMap := m, lastStepCount := steps.length })
    else ([], t)
  let (updEvs, t2) := stepUpdateLoop steps 0 t1
  (newEvs ++ updEvs, t2)

/-- `status === PENDING || status === RUNNING || status === WAITING`. -/
def isInteractiveState (st : CortexStepStatus) : Bool :=
  st == .pending || st == .running || st == .waiting

/-- The observable output (approval type, description) of the branch of
`buildApprovalRequest` selected by the interaction case; the `approve`/`deny`
callbacks it closes over are I/O and outside the model. -/
def buildApprovalRequest (st : Step) (commandLine : String) (ic : InteractionCase) :
    String × String :=
  match ic with
  | .runCommand => ("run_command", "Run Command: " ++ commandLine)
  | .filePermission spec =>
      ("file_permission",
       "File Access: " ++ spec.absolutePathUri ++ (if spec.isDirectory then " (directory)" else ""))
  | .openBrowserUrl =>
      let url :=
        match st.step with
        | some (.openBrowserUrl u) => if u ≠ "" then u else "Unknown URL"
        | _ => "Unknown URL"
      ("open_browser_url", "Open Browser: " ++ url)
  | .executeBrowserJavascript | .captureBrowserScreenshot | .clickBrowserPixel
  | .browserAction | .openBrowserSetup | .confirmBrowserSetup =>
      ("browser_action", "Browser Action: " ++ interactionCaseName ic)
  | .sendCommandInput => ("send_command_input", "Send Command Input")
  | .mcp => ("mcp", "MCP Tool Interaction")
  | .otherInteraction name => ("other", "Unknown Interaction: " ++ name)

/-- The observable output of `buildInlineFilePermissionRequest`. -/
def buildInlineFilePermissionRequest (spec : FilePermissionSpec) : String × String :=
  ("file_permission",
   (if spec.isDirectory then "Read Directory" else "Read File") ++ ": " ++ spec.absolutePathUri)

/-- The `steps.forEach` of `emitApprovalRequests` (debug logging elided): a
step in an interactive status that carries a tagged interaction case or an
inline file-permission field, whose index is not yet in `emittedInteractions`,
adds its index to the set and emits one `approval:needed` event (tagged case
preferred over the inline field when building it). -/
def approvalLoop : List (Option Step) → Nat → Tracking → List Event × Tracking
  | [], _, t => ([], t)
  | none :: rest, i, t => approvalLoop rest (i + 1) t
  | some st :: rest, i, t =>
      let inlineFilePermission := payloadFilePermissionRequest st
      if ¬ isInteractiveState st.status then approvalLoop rest (i + 1) t
      else if st.requestedInteraction = none ∧ inlineFilePermission = none then
        approvalLoop rest (i + 1) t
      else if t.emittedInteractions i then approvalLoop rest (i + 1) t
      else
        let rc := payloadRunCommand st
        let autoRun := match rc with | some rc => rc.shouldAutoRun | none => false
        let commandLine :=
          match rc with
          | some rc => if rc.proposedCommandLine ≠ "" then rc.proposedCommandLine else rc.commandLine
          | none => ""
        let needsApproval := if st.status = .waiting then true else !autoRun
        let t1 := { t with emittedInteractions := Function.update t.emittedInteractions i true }
        let request : Option (String × String) :=
          match st.requestedInteraction with
          | some ic => some (buildApprovalRequest st commandLine ic)
          | none =>
              match inlineFilePermission with
              | some spec => some (buildInlineFilePermissionRequest spec)
              | none => none
        let evs : List Event :=
          match request with
          | some (ty, desc) => [.approvalNeeded ty desc i autoRun needsApproval]
          | none => []
        let (evs2, t2) := approvalLoop rest (i + 1) t1
        (evs ++ evs2, t2)

/-- `emitApprovalRequests`. -/
def emitApprovalRequests (steps : List (Option Step)) (t : Tracking) : List Event × Tracking :=
  approvalLoop steps 0 t

/-- The `steps.forEach` of `emitCommandOutputDeltas`: for a `runCommand` step,
emit a stdout delta then a stderr delta whenever the channel grew past the
tracked length (a shorter current value leaves tracking unchanged). -/
def commandOutputLoop : List (Option Step) → Nat → Tracking → List Event × Tracking
  | [], _, t => ([], t)
  | none :: rest, i, t => commandOutputLoop rest (i + 1) t
  | some st :: rest, i, t =>
      match payloadRunCommand st with
      | none => commandOutputLoop rest (i + 1) t
      | some rc =>
          let stdout := rc.stdout
          let stderr := rc.stderr
          let lastStdout := t.lastEmittedStdout i
          let (evs1, t1) :=
            if stdout.length > lastStdout.length then
              ([Event.commandOutput (stdout.drop lastStdout.length) stdout "stdout" i],
               { t with lastEmittedStdout := Function.update t.lastEmittedStdout i stdout })
            else ([], t)
          let lastStderr := t1.lastEmittedStderr i
          let (evs2, t2) :=
            if stderr.length > lastStderr.length then
              ([Event.commandOutput (stderr.drop lastStderr.length) stderr "stderr" i],
               { t1 with lastEmittedStderr := Function.update t1.lastEmittedStderr i stderr })
            else ([], t1)
          let (evs3, t3) := commandOutputLoop rest (i + 1) t2
          (evs1 ++ evs2 ++ evs3, t3)

/-- `emitCommandOutputDeltas`. -/
def emitCommandOutputDeltas (steps : List (Option Step)) (t : Tracking) :
    List Event × Tracking :=
  commandOutputLoop steps 0 t

/-- The `steps.forEach` of `emitTextDeltas`: for a `plannerResponse` step,
emit a response-text delta (channel `plannerResponseText`) then a thinking
delta whenever the channel grew past the tracked length. -/
def textDeltasLoop : List (Option Step) → Nat → Tracking → List Event × Tracking
  | [], _, t => ([], t)
  | none :: rest, i, t => textDeltasLoop rest (i + 1) t
  | some st :: rest, i, t =>
      match st.step with
      | some (.plannerResponse planner) =>
          let response := plannerResponseText planner
          let thinking := planner.thinking
          let lastText := t.lastEmittedText i
          let (evs1, t1) :=
            if response.length > lastText.length then
              ([Event.textDelta (response.drop lastText.length) response i],
               { t with lastEmittedText := Function.update t.lastEmittedText i response })
            else ([], t)
          let lastThinking := t1.lastEmittedThinking i
          let (evs2, t2) :=
            if thinking.length > lastThinking.length then
              ([Event.thinkingDelta (thinking.drop lastThinking.length) thinking i],
               { t1 with lastEmittedThinking := Function.update t1.lastEmittedThinking i thinking })
            else ([], t1)
          let (evs3, t3) := textDeltasLoop rest (i + 1) t2
          (evs1 ++ evs2 ++ evs3, t3)
      | _ => textDeltasLoop rest (i + 1) t

/-- `emitTextDeltas`. -/
def emitTextDeltas (steps : List (Option Step)) (t : Tracking) : List Event × Tracking :=
  textDeltasLoop steps 0 t

/-- `emitEvents`: the fixed derivation order after each applied diff
(status change, step new/update, approvals, command-output deltas, text
deltas); everything after the status change is skipped when the state has no
trajectory. -/
def emitEvents (s : CascadeState) (t : Tracking) : List Event × Tracking :=
  let (evs0, t0) := emitStatusChange s t
  match s.trajectory with
  | none => (evs0, t0)
  | some traj =>
      let steps := traj.steps
      let (evs1, t1) := emitStepEvents steps t0
      let (evs2, t2) := emitApprovalRequests steps t1
      let (evs3, t3) := emitCommandOutputDeltas steps t2
      let (evs4, t4) := emitTextDeltas steps t3
      (evs0 ++ evs1 ++ evs2 ++ evs3 ++ evs4, t4)

/-- Feeding a sequence of projection snapshots (the state after each applied
diff, in arrival order) through the deriver, accumulating all events in
emission order: the subscription lifetime of one session. -/
def runAll : List CascadeState → Tracking → List Event × Tracking
  | [], t => ([], t)
  | s :: rest, t =>
      let (evs, t1) := emitEvents s t
      let (evs2, t2) := runAll rest t1
      (evs ++ evs2, t2)

/-! ## The stream-consumption loop (`Cascade.listen`) -/

/-- A stream error as classified by `Cascade.listen`'s catch block: the
Connect error `code` and `message` are all it reads. -/
structure StreamError where
  code : Option Int
  message : String
deriving DecidableEq, Repr

/-- Does the character list start with the pattern? (helper for `jsIncludes`). -/
def charsStartWith : List Char → List Char → Bool
  | [], _ => true
  | _ :: _, [] => false
  | p :: ps, c :: cs => p == c && charsStartWith ps cs

/-- Does the pattern occur contiguously in the character list? -/
def charsInclude (pat : List Char) : List Char → Bool
  | [] => charsStartWith pat []
  | c :: cs => charsStartWith pat (c :: cs) || charsInclude pat cs

/-- JavaScript `s.includes(pat)`: contiguous substring test. -/
def jsIncludes (s pat : String) : Bool :=
  charsInclude pat.toList s.toList

/-- The terminal-error classification of `Cascade.listen`:
`err?.code === 1 || (err?.code === 2 && err?.message?.includes("canceled"))`.
Connect code 1 is CANCELED and code 2 is UNKNOWN. -/
def isTerminalError (e : StreamError) : Bool :=
  e.code == some 1 || (e.code == some 2 && jsIncludes e.message "canceled")

/-- Modelled from the spec: the spec's classification of terminal stream
errors, "explicit cancellation, resource-not-found" (§4.2, §7); Connect code 1
is CANCELED (explicit cancellation) and code 5 is NOT_FOUND
(resource-not-found).  The transport layer that would pin these codes down is
generated code under `src/gen/`, absent from the sources. -/
def isTerminalErrorSpec (e : StreamError) : Bool :=
  e.code == some 1 || e.code == some 5

/-- What one subscription attempt observed: the stream ended cleanly after
some messages, or failed with an error. -/
inductive StreamOutcome where
  | endedCleanly (messages : Nat)
  | failed (messages : Nat) (err : StreamError)
deriving DecidableEq, Repr

/-- Does `listen` classify this outcome as loop-terminating? -/
def isTerminalOutcome : StreamOutcome → Bool
  | .endedCleanly _ => false
  | .failed _ e => isTerminalError e

/-- Observable trace of the `listen` retry loop. -/
structure LoopTrace where
  attempts : Nat        -- subscriptions opened, each with a fresh subscriber id
  delays : Nat          -- fixed `retryDelay` waits taken
  errorEvents : Nat     -- `error` events emitted to the consumer
  stoppedByTerminal : Bool
deriving DecidableEq, Repr

/-- Embedding of the control flow of `Cascade.listen`: each outcome is what
one subscription attempt observed.  A clean end of stream falls through to the
fixed delay and the next attempt; an error classified terminal breaks out of
the loop (skipping the delay, emitting no event); any other error emits an
`error` event and falls through to the delay and the next attempt.
`maxAttempts` is `Infinity`, so the loop consumes outcomes for as long as they
are supplied (the recursion is on the supplied outcomes, not on any attempt
budget). -/
def listenModel : List StreamOutcome → LoopTrace
  | [] => { attempts := 0, delays := 0, errorEvents := 0, stoppedByTerminal := false }
  | .endedCleanly _ :: rest =>
      let tr := listenModel rest
      { tr with attempts := tr.attempts + 1, delays := tr.delays + 1 }
  | .failed _ e :: rest =>
      if isTerminalError e then
        { attempts := 1, delays := 0, errorEvents := 0, stoppedByTerminal := true }
      else
        let tr := listenModel rest
        { tr with attempts := tr.attempts + 1, delays := tr.delays + 1,
                  errorEvents := tr.errorEvents + 1 }

/-! ## General helper lemmas -/

theorem string_drop_append (a b : String) : (a ++ b).drop a.length = b := by
  apply String.toList_inj.mp
  show ((a ++ b).drop a.length).data = b.data
  rw [String.data_drop, String.data_append]
  rw [show a.length = a.data.length from (String.length_data a).symm]
  simp

theorem lookupField_setAssoc (fs : List (String × JSVal)) (k : String) (v : JSVal) :
    lookupField (setAssoc fs k v) k = v := by
  induction fs with
  | nil => simp [setAssoc, lookupField]
  | cons hd rest ih =>
    obtain ⟨k', w⟩ := hd
    by_cases h : k' = k
    · simp [setAssoc, lookupField, h]
    · simp [setAssoc, lookupField, h, ih]

/-- Is this event an `approval:needed` emission? -/
def isApprovalEvent : Event → Bool
  | .approvalNeeded _ _ _ _ _ => true
  | _ => false

/-- Is this event an `approval:needed` emission for step index `i`? -/
def isApprovalAt (i : Nat) : Event → Bool
  | .approvalNeeded _ _ j _ _ => j == i
  | _ => false

/-! ## C2: reconnect policy of `Cascade.listen` -/

/-- C2 counterexample: a resource-not-found stream error (Connect code 5) is
terminal under the claim's classification ("explicit cancellation,
resource-not-found"), but `listen` does not classify it terminal: the loop
does not stop and resubscribes (a second attempt happens). -/
theorem c2_notfound_retries_counterexample :
    isTerminalErrorSpec { code := some 5, message := "resource not found" } = true
    ∧ isTerminalError { code := some 5, message := "resource not found" } = false
    ∧ (listenModel [.failed 0 { code := some 5, message := "resource not found" },
        .endedCleanly 1]).stoppedByTerminal = false
    ∧ (listenModel [.failed 0 { code := some 5, message := "resource not found" },
        .endedCleanly 1]).attempts = 2 := by
  decide

/-- C2 (amended): the loop stops permanently only on an error classified
terminal, where terminal means Connect code 1 (cancelled) or code 2 with
"canceled" in the message — not resource-not-found; a clean end-of-stream and
every other stream error lead to one fixed delay followed by resubscription
with a fresh subscriber identifier, for as many attempts as outcomes are
supplied (the loop bound is infinite). -/
theorem c2_reconnect_policy :
    (∀ outs : List StreamOutcome, (∀ o ∈ outs, isTerminalOutcome o = false) →
        (listenModel outs).stoppedByTerminal = false
        ∧ (listenModel outs).attempts = outs.length
        ∧ (listenModel outs).delays = outs.length)
    ∧ (∀ (n : Nat) (e : StreamError) (rest : List StreamOutcome),
        isTerminalError e = true →
        listenModel (.failed n e :: rest)
          = { attempts := 1, delays := 0, errorEvents := 0, stoppedByTerminal := true })
    ∧ (∀ e : StreamError, isTerminalError e = true ↔
        (e.code = some 1 ∨ (e.code = some 2 ∧ jsIncludes e.message "canceled" = true))) := by
  refine ⟨?_, ?_, ?_⟩
  · intro outs h
    induction outs with
    | nil => simp [listenModel]
    | cons o rest ih =>
      have hrest := ih (fun o' ho' => h o' (List.mem_cons_of_mem _ ho'))
      cases o with
      | endedCleanly m =>
        simp [listenModel, hrest.1, hrest.2.1, hrest.2.2]
      | failed m e =>
        have he : isTerminalError e = false := by
          simpa [isTerminalOutcome] using h _ (List.mem_cons_self _ _)
        simp [listenModel, he, hrest.1, hrest.2.1, hrest.2.2]
  · intro n e rest h
    simp [listenModel, h]
  · intro e
    simp [isTerminalError]

/-- Witness for `c2_reconnect_policy` at concrete inputs: a clean end followed
by a non-terminal (code 13) failure never stops the loop and yields one
resubscription per outcome; a cancellation (code 1) failure stops it at once. -/
theorem c2_reconnect_policy_witness :
    ((listenModel [.endedCleanly 2, .failed 0 { code := some 13, message := "unavailable" }]).stoppedByTerminal = false
      ∧ (listenModel [.endedCleanly 2, .failed 0 { code := some 13, message := "unavailable" }]).attempts
          = [StreamOutcome.endedCleanly 2, .failed 0 { code := some 13, message := "unavailable" }].length
      ∧ (listenModel [.endedCleanly 2, .failed 0 { code := some 13, message := "unavailable" }]).delays
          = [StreamOutcome.endedCleanly 2, .failed 0 { code := some 13, message := "unavailable" }].length)
    ∧ listenModel [.failed 3 { code := some 1, message := "call canceled" }]
        = { attempts := 1, delays := 0, errorEvents := 0, stoppedByTerminal := true } :=
  ⟨c2_reconnect_policy.1 _ (by decide),
   c2_reconnect_policy.2.1 3 { code := some 1, message := "call canceled" } [] (by decide)⟩

/-! ## C3: consumer-facing `error` event policy -/

/-- C3 counterexample: a non-terminal stream error (Connect code 13) is
reported to the consumer via an `error` event (the claim says non-terminal
errors are never reported), while a terminal cancellation error stops the loop
without emitting any `error` event (the claim says terminal errors are
reported exactly once). -/
theorem c3_nonterminal_error_reported_counterexample :
    isTerminalError { code := some 13, message := "internal" } = false
    ∧ (listenModel [.failed 0 { code := some 13, message := "internal" }]).errorEvents = 1
    ∧ isTerminalError { code := some 1, message := "canceled by client" } = true
    ∧ (listenModel [.failed 0 { code := some 1, message := "canceled by client" }]).errorEvents = 0
    ∧ (listenModel [.failed 0 { code := some 1, message := "canceled by client" }]).stoppedByTerminal = true := by
  decide

/-- C3 (amended): the consumer-facing `error` event is emitted exactly once
for each stream error classified non-terminal (after which the loop backs off
and reconnects), and a terminal stream error emits no `error` event at all —
it silently stops the loop; a clean end-of-stream emits nothing. -/
theorem c3_error_event_policy :
    (∀ (n : Nat) (e : StreamError) (rest : List StreamOutcome), isTerminalError e = false →
        (listenModel (.failed n e :: rest)).errorEvents = (listenModel rest).errorEvents + 1
        ∧ (listenModel (.failed n e :: rest)).stoppedByTerminal = (listenModel rest).stoppedByTerminal)
    ∧ (∀ (n : Nat) (e : StreamError) (rest : List StreamOutcome), isTerminalError e = true →
        (listenModel (.failed n e :: rest)).errorEvents = 0
        ∧ (listenModel (.failed n e :: rest)).stoppedByTerminal = true)
    ∧ (∀ (n : Nat) (rest : List StreamOutcome),
        (listenModel (.endedCleanly n :: rest)).errorEvents = (listenModel rest).errorEvents) := by
  refine ⟨?_, ?_, ?_⟩
  · intro n e rest h
    simp [listenModel, h]
  · intro n e rest h
    simp [listenModel, h]
  · intro n rest
    simp [listenModel]

/-- Witness for `c3_error_event_policy` at concrete inputs. -/
theorem c3_error_event_policy_witness :
    ((listenModel [.failed 0 { code := some 13, message := "internal" }]).errorEvents
        = (listenModel ([] : List StreamOutcome)).errorEvents + 1
      ∧ (listenModel [.failed 0 { code := some 13, message := "internal" }]).stoppedByTerminal
        = (listenModel ([] : List StreamOutcome)).stoppedByTerminal)
    ∧ ((listenModel [.failed 0 { code := some 1, message := "canceled" }]).errorEvents = 0
      ∧ (listenModel [.failed 0 { code := some 1, message := "canceled" }]).stoppedByTerminal = true) :=
  ⟨c3_error_event_policy.1 0 { code := some 13, message := "internal" } [] (by decide),
   c3_error_event_policy.2.1 0 { code := some 1, message := "canceled" } [] (by decide)⟩

/-! ## C4: the repeated-field index/value length mismatch -/

/-- C4: the code contradicts the claim's "never aborts" guarantee.  On a
repeated-field operation whose index list (`[0, 1]`) is longer than its value
list (`["x"]`), the loop reads `rd.updateValues[1]` — `undefined` — and
`extractSingularValue(undefined, ...)` dereferences `sv.value`, throwing a
`TypeError` that aborts the whole application (first conjunct).  The other
graceful-degradation parts of the claim do hold: an unknown field number
leaves the target unchanged (second conjunct), and extra values beyond the
index list are discarded after the aligned pairs are applied (third
conjunct). -/
theorem c4_mismatched_repeated_diff_throws :
    applyMessageDiff (.obj [])
        (.mk [.mk 1 (.updateRepeated (.mk none [0, 1] [.stringValue "x"]))])
        (.mk "T" [.mk 1 "items" .scalarK none])
      = .error "TypeError: cannot read value of undefined"
    ∧ applyMessageDiff (.obj [])
        (.mk [.mk 2 (.updateSingular (.stringValue "x"))])
        (.mk "T" [.mk 1 "items" .scalarK none])
      = .ok (.obj [])
    ∧ applyMessageDiff (.obj [])
        (.mk [.mk 1 (.updateRepeated (.mk none [0] [.stringValue "x", .stringValue "y"]))])
        (.mk "T" [.mk 1 "items" .scalarK none])
      = .ok (.obj [("items", .arrV [.str "x"])]) :=
  ⟨rfl, rfl, rfl⟩

/-! ## C10: the response-text channel -/

/-- C10: the response-text channel used by `emitTextDeltas` is
`modifiedResponse` whenever that field is non-empty, and only otherwise
`response`; consequently the channel differs from the raw `response` field
whenever a distinct `modifiedResponse` is set, and the `fullText`/delta of any
`text:delta` event emitted for a planner step is computed from this channel. -/
theorem c10_response_channel_prefers_modified :
    (∀ pr : PlannerResponsePayload, pr.modifiedResponse ≠ "" →
        plannerResponseText pr = pr.modifiedResponse)
    ∧ (∀ pr : PlannerResponsePayload, pr.modifiedResponse = "" →
        plannerResponseText pr = pr.response)
    ∧ (∀ pr : PlannerResponsePayload, pr.modifiedResponse ≠ "" →
        pr.modifiedResponse ≠ pr.response → plannerResponseText pr ≠ pr.response)
    ∧ (∀ (st : Step) (pr : PlannerResponsePayload) (t : Tracking) (i j : Nat) (d f : String),
        st.step = some (.plannerResponse pr) →
        Event.textDelta d f j ∈ (textDeltasLoop [some st] i t).1 →
        f = plannerResponseText pr ∧ j = i
          ∧ d = (plannerResponseText pr).drop (t.lastEmittedText i).length) := by
  refine ⟨?_, ?_, ?_, ?_⟩
  · intro pr h
    simp [plannerResponseText, h]
  · intro pr h
    simp [plannerResponseText, h]
  · intro pr h hne
    simp [plannerResponseText, h, hne]
  · intro st pr t i j d f hstep hmem
    rw [show (some st :: ([] : List (Option Step))) = [some st] from rfl] at hmem
    simp only [textDeltasLoop, hstep] at hmem
    split at hmem <;> split at hmem <;>
      simp_all [textDeltasLoop]

/-- Witness for `c10_response_channel_prefers_modified` at a concrete planner
payload with both fields set. -/
theorem c10_response_channel_witness :
    plannerResponseText { response := "raw", modifiedResponse := "mod" } = "mod"
    ∧ plannerResponseText { response := "raw", modifiedResponse := "mod" }
        ≠ PlannerResponsePayload.response { response := "raw", modifiedResponse := "mod" }
    ∧ ("mod" = plannerResponseText { response := "raw", modifiedResponse := "mod" }
        ∧ 0 = 0
        ∧ "mod" = (plannerResponseText { response := "raw", modifiedResponse := "mod" }).drop
            (initialTracking.lastEmittedText 0).length) :=
  ⟨c10_response_channel_prefers_modified.1 _ (by decide),
   c10_response_channel_prefers_modified.2.2.1 _ (by decide) (by decide),
   c10_response_channel_prefers_modified.2.2.2
     { step := some (.plannerResponse { response := "raw", modifiedResponse := "mod" }) }
     { response := "raw", modifiedResponse := "mod" } initialTracking 0 0 "mod" "mod"
     rfl (by decide)⟩

/-! ## C5: repeated-field resize semantics -/

/-- C5: on a repeated-field operation carrying a `newLength`, the applier
first resizes — dropping exactly the trailing elements when `newLength` is
smaller, appending `undefined` placeholders when larger — and only then
applies the sparse index/value pairs to the resized array (first conjunct
exposes the resize-then-pairs factoring; second and third conjuncts pin the
truncation/padding result exactly).  Each pair uses the same singular-value
extraction as a scalar/message field: message-kind fields pass the existing
element at the index for reuse, every other kind extracts against
`undefined`. -/
theorem c5_repeated_resize_before_updates :
    (∀ (fs : List (String × JSVal)) (name : String) (l : List JSVal) (n : Nat)
       (idxs : List Nat) (vals : List SingularValue) (field : PFieldInfo),
      lookupField fs name = .arrV l →
      (applyRepeatedDiff (.obj fs) name (.mk (some n) idxs vals) field
          = (applyRepeatedPairs
              (if l.length > n then l.take n else l ++ List.replicate (n - l.length) .undef)
              idxs vals field).bind (fun arr2 => setFieldE (.obj fs) name (.arrV arr2)))
      ∧ (n ≤ l.length →
          applyRepeatedDiff (.obj fs) name (.mk (some n) [] []) field
            = .ok (.obj (setAssoc fs name (.arrV (l.take n)))))
      ∧ (l.length < n →
          applyRepeatedDiff (.obj fs) name (.mk (some n) [] []) field
            = .ok (.obj (setAssoc fs name (.arrV (l ++ List.replicate (n - l.length) .undef))))))
    ∧ (∀ (field : PFieldInfo) (t : PMessageType) (idx : Nat) (v : SingularValue) (arr : List JSVal),
        field.kind = .messageK t →
        applyRepeatedPairs arr [idx] [v] field
          = (extractSingularValue v field (arr.getD idx .undef)).bind
              (fun newVal => .ok (listSetSparse arr idx newVal)))
    ∧ (∀ (field : PFieldInfo) (idx : Nat) (v : SingularValue) (arr : List JSVal),
        (∀ t, field.kind ≠ .messageK t) →
        applyRepeatedPairs arr [idx] [v] field
          = (extractSingularValue v field .undef).bind
              (fun newVal => .ok (listSetSparse arr idx newVal))) := by
  refine ⟨?_, ?_, ?_⟩
  · intro fs name l n idxs vals field h
    refine ⟨?_, ?_, ?_⟩
    · simp only [applyRepeatedDiff, getField, h]
      rfl
    · intro hle
      simp only [applyRepeatedDiff, getField, h]
      rcases Nat.lt_or_ge n l.length with hlt | hge
      · simp [hlt, applyRepeatedPairs, setFieldE, Except.bind]
        rfl
      · have heq : n = l.length := Nat.le_antisymm hle hge
        subst heq
        simp [applyRepeatedPairs, setFieldE, Except.bind]
        rfl
    · intro hlt
      have hng : ¬ (l.length > n) := Nat.not_lt.mpr (Nat.le_of_lt hlt)
      simp [hng, applyRepeatedPairs, setFieldE, Except.bind, applyRepeatedDiff, getField, h]
      rfl
  · intro field t idx v arr hk
    simp only [applyRepeatedPairs, hk]
    cases extractSingularValue v field (arr.getD idx .undef) <;> rfl
  · intro field idx v arr hk
    rcases hfk : field.kind with _ | _ | t | mv
    · simp only [applyRepeatedPairs, hfk]
      cases extractSingularValue v field .undef <;> rfl
    · simp only [applyRepeatedPairs, hfk]
      cases extractSingularValue v field .undef <;> rfl
    · exact absurd hfk (hk t)
    · simp only [applyRepeatedPairs, hfk]
      cases extractSingularValue v field .undef <;> rfl

/-- Witness for `c5_repeated_resize_before_updates`: truncating a 3-element
array to length 1 keeps exactly its first element, and a non-message pair
extracts against `undefined`. -/
theorem c5_repeated_resize_witness :
    applyRepeatedDiff (.obj [("items", .arrV [.str "a", .str "b", .str "c"])]) "items"
        (.mk (some 1) [] []) (.mk 1 "items" .scalarK none)
      = .ok (.obj (setAssoc [("items", .arrV [.str "a", .str "b", .str "c"])] "items"
          (.arrV ([JSVal.str "a", JSVal.str "b", JSVal.str "c"].take 1))))
    ∧ applyRepeatedPairs [.str "a"] [0] [.stringValue "z"] (.mk 1 "items" .scalarK none)
      = (extractSingularValue (.stringValue "z") (.mk 1 "items" .scalarK none) .undef).bind
          (fun newVal => .ok (listSetSparse [.str "a"] 0 newVal)) :=
  ⟨((c5_repeated_resize_before_updates.1 [("items", .arrV [.str "a", .str "b", .str "c"])]
      "items" [.str "a", .str "b", .str "c"] 1 [] [] (.mk 1 "items" .scalarK none) rfl).2.1
      (by decide)),
   c5_repeated_resize_before_updates.2.2 (.mk 1 "items" .scalarK none) 0 (.stringValue "z")
      [.str "a"] (fun t h => nomatch h)⟩

/-! ## C6: oneof case switching -/

/-- C6: a singular-value operation on a field belonging to a oneof group
writes `{case: localName, value}` into the group slot, so afterwards the group
accessor yields exactly the newly set case and value, and no value under any
other case name is reachable through the group accessor. -/
theorem c6_oneof_switch :
    ∀ (fs : List (String × JSVal)) (type : PMessageType) (no : Nat) (field : PFieldInfo)
      (g : String) (sv : SingularValue) (v : JSVal),
      type.fields.find? (fun f => f.number == no) = some field →
      field.oneofName = some g →
      extractSingularValue sv field
          (match lookupField fs g with
           | .oneofV c w => if c = field.localName then w else .undef
           | _ => .undef) = .ok v →
      applyFieldDiff (.obj fs) (.mk no (.updateSingular sv)) type
          = .ok (.obj (setAssoc fs g (.oneofV field.localName v)))
      ∧ getField (.obj (setAssoc fs g (.oneofV field.localName v))) g
          = .oneofV field.localName v
      ∧ (∀ c w, c ≠ field.localName →
          getField (.obj (setAssoc fs g (.oneofV field.localName v))) g ≠ .oneofV c w) := by
  intro fs type no field g sv v hfind honeof hextract
  have h2 : getField (.obj (setAssoc fs g (.oneofV field.localName v))) g
      = .oneofV field.localName v := by
    simp [getField, lookupField_setAssoc]
  refine ⟨?_, h2, ?_⟩
  · simp only [applyFieldDiff, hfind, honeof, getField]
    rw [hextract]
    rfl
  · intro c w hc hget
    rw [h2] at hget
    exact hc (by injection hget with h1 _; exact h1.symm)

/-- Witness for `c6_oneof_switch`: switching a group holding case `caseB`
to case `caseA` makes the old `caseB` value unreachable via the group slot. -/
theorem c6_oneof_switch_witness :
    applyFieldDiff (.obj [("payload", .oneofV "caseB" (.str "old"))])
        (.mk 7 (.updateSingular (.stringValue "new")))
        (.mk "T" [.mk 7 "caseA" .scalarK (some "payload")])
      = .ok (.obj (setAssoc [("payload", .oneofV "caseB" (.str "old"))] "payload"
          (.oneofV "caseA" (.str "new"))))
    ∧ getField (.obj (setAssoc [("payload", .oneofV "caseB" (.str "old"))] "payload"
          (.oneofV "caseA" (.str "new")))) "payload"
        = .oneofV "caseA" (.str "new")
    ∧ getField (.obj (setAssoc [("payload", .oneofV "caseB" (.str "old"))] "payload"
          (.oneofV "caseA" (.str "new")))) "payload"
        ≠ .oneofV "caseB" (.str "old") :=
  have h := c6_oneof_switch [("payload", .oneofV "caseB" (.str "old"))]
    (.mk "T" [.mk 7 "caseA" .scalarK (some "payload")]) 7
    (.mk 7 "caseA" .scalarK (some "payload")) "payload" (.stringValue "new") (.str "new")
    rfl rfl rfl
  ⟨h.1, h.2.1, h.2.2 "caseB" (.str "old") (by decide)⟩

/-! ## Structural lemmas about the deriver

Each sub-deriver owns a disjoint group of tracking fields; the shape lemmas
below make that explicit, and the event-shape lemmas record which event
constructors each sub-deriver can produce. -/

theorem emitStatusChange_tracking (s : CascadeState) (t : Tracking) :
    ∃ a b, (emitStatusChange s t).2 = { t with lastStatus := a, lastCascadeStatus := b } := by
  unfold emitStatusChange
  dsimp only
  split
  · exact ⟨s.status, s.status, rfl⟩
  · exact ⟨s.status, t.lastCascadeStatus, rfl⟩

theorem stepUpdateLoop_tracking :
    ∀ (steps : List (Option Step)) (i : Nat) (t : Tracking),
      ∃ m, (stepUpdateLoop steps i t).2 = { t with stepStatusMap := m } := by
  intro steps
  induction steps with
  | nil => exact fun i t => ⟨t.stepStatusMap, rfl⟩
  | cons hd rest ih =>
    intro i t
    cases hd with
    | none =>
      obtain ⟨m, hm⟩ := ih (i + 1) t
      exact ⟨m, by simpa [stepUpdateLoop] using hm⟩
    | some st =>
      obtain ⟨m, hm⟩ :=
        ih (i + 1) { t with stepStatusMap := Function.update t.stepStatusMap i (some st.status) }
      exact ⟨m, by simpa [stepUpdateLoop] using hm⟩

theorem emitStepEvents_tracking (steps : List (Option Step)) (t : Tracking) :
    ∃ c m, (emitStepEvents steps t).2 = { t with lastStepCount := c, stepStatusMap := m } := by
  unfold emitStepEvents
  dsimp only
  split
  · obtain ⟨m, hm⟩ := stepUpdateLoop_tracking steps 0
      { t with stepStatusMap := (newStepsLoop (steps.drop t.lastStepCount) t.lastStepCount t.stepStatusMap).2,
               lastStepCount := steps.length }
    exact ⟨steps.length, m, by simpa using hm⟩
  · obtain ⟨m, hm⟩ := stepUpdateLoop_tracking steps 0 t
    exact ⟨t.lastStepCount, m, by simpa using hm⟩

theorem approvalLoop_tracking :
    ∀ (steps : List (Option Step)) (i : Nat) (t : Tracking),
      ∃ f, (approvalLoop steps i t).2 = { t with emittedInteractions := f } := by
  intro steps
  induction steps with
  | nil => exact fun i t => ⟨t.emittedInteractions, rfl⟩
  | cons hd rest ih =>
    intro i t
    cases hd with
    | none =>
      obtain ⟨f, hf⟩ := ih (i + 1) t
      exact ⟨f, by simpa [approvalLoop] using hf⟩
    | some st =>
      by_cases h1 : isInteractiveState st.status
      · by_cases h2 : st.requestedInteraction = none ∧ payloadFilePermissionRequest st = none
        · obtain ⟨f, hf⟩ := ih (i + 1) t
          exact ⟨f, by simp [approvalLoop, h1, h2]; simpa using hf⟩
        · by_cases h3 : t.emittedInteractions i
          · obtain ⟨f, hf⟩ := ih (i + 1) t
            exact ⟨f, by simp [approvalLoop, h1, h2, h3]; simpa using hf⟩
          · obtain ⟨f, hf⟩ :=
              ih (i + 1) { t with emittedInteractions := Function.update t.emittedInteractions i true }
            exact ⟨f, by simp [approvalLoop, h1, h2, h3]; simpa using hf⟩
      · obtain ⟨f, hf⟩ := ih (i + 1) t
        exact ⟨f, by simp [approvalLoop, h1]; simpa using hf⟩

theorem commandOutputLoop_tracking :
    ∀ (steps : List (Option Step)) (i : Nat) (t : Tracking),
      ∃ f g, (commandOutputLoop steps i t).2
        = { t with lastEmittedStdout := f, lastEmittedStderr := g } := by
  intro steps
  induction steps with
  | nil => exact fun i t => ⟨t.lastEmittedStdout, t.lastEmittedStderr, rfl⟩
  | cons hd rest ih =>
    intro i t
    cases hd with
    | none =>
      obtain ⟨f, g, hfg⟩ := ih (i + 1) t
      exact ⟨f, g, by simpa [commandOutputLoop] using hfg⟩
    | some st =>
      cases hrc : payloadRunCommand st with
      | none =>
        obtain ⟨f, g, hfg⟩ := ih (i + 1) t
        exact ⟨f, g, by simp [commandOutputLoop, hrc]; simpa using hfg⟩
      | some rc =>
        by_cases h1 : rc.stdout.length > (t.lastEmittedStdout i).length
        · by_cases h2 : rc.stderr.length > (t.lastEmittedStderr i).length
          · obtain ⟨f, g, hfg⟩ := ih (i + 1)
              { t with lastEmittedStdout := Function.update t.lastEmittedStdout i rc.stdout,
                       lastEmittedStderr := Function.update t.lastEmittedStderr i rc.stderr }
            exact ⟨f, g, by simp [commandOutputLoop, hrc, h1, h2]; simpa using hfg⟩
          · obtain ⟨f, g, hfg⟩ := ih (i + 1)
              { t with lastEmittedStdout := Function.update t.lastEmittedStdout i rc.stdout }
            exact ⟨f, g, by simp [commandOutputLoop, hrc, h1, h2]; simpa using hfg⟩
        · by_cases h2 : rc.stderr.length > (t.lastEmittedStderr i).length
          · obtain ⟨f, g, hfg⟩ := ih (i + 1)
              { t with lastEmittedStderr := Function.update t.lastEmittedStderr i rc.stderr }
            exact ⟨f, g, by simp [commandOutputLoop, hrc, h1, h2]; simpa using hfg⟩
          · obtain ⟨f, g, hfg⟩ := ih (i + 1) t
            exact ⟨f, g, by simp [commandOutputLoop, hrc, h1, h2]; simpa using hfg⟩

theorem textDeltasLoop_tracking :
    ∀ (steps : List (Option Step)) (i : Nat) (t : Tracking),
      ∃ f g, (textDeltasLoop steps i t).2
        = { t with lastEmittedText := f, lastEmittedThinking := g } := by
  intro steps
  induction steps with
  | nil => exact fun i t => ⟨t.lastEmittedText, t.lastEmittedThinking, rfl⟩
  | cons hd rest ih =>
    intro i t
    match hd with
    | none =>
      obtain ⟨f, g, hfg⟩ := ih (i + 1) t
      exact ⟨f, g, by simpa [textDeltasLoop] using hfg⟩
    | some st =>
      cases hpl : st.step with
      | some pl =>
        cases pl with
        | plannerResponse planner =>
          by_cases h1 : (plannerResponseText planner).length > (t.lastEmittedText i).length
          · by_cases h2 : planner.thinking.length > (t.lastEmittedThinking i).length
            · obtain ⟨f, g, hfg⟩ := ih (i + 1)
                { t with lastEmittedText := Function.update t.lastEmittedText i (plannerResponseText planner),
                         lastEmittedThinking := Function.update t.lastEmittedThinking i planner.thinking }
              exact ⟨f, g, by simp [textDeltasLoop, hpl, h1, h2]; simpa using hfg⟩
            · obtain ⟨f, g, hfg⟩ := ih (i + 1)
                { t with lastEmittedText := Function.update t.lastEmittedText i (plannerResponseText planner) }
              exact ⟨f, g, by simp [textDeltasLoop, hpl, h1, h2]; simpa using hfg⟩
          · by_cases h2 : planner.thinking.length > (t.lastEmittedThinking i).length
            · obtain ⟨f, g, hfg⟩ := ih (i + 1)
                { t with lastEmittedThinking := Function.update t.lastEmittedThinking i planner.thinking }
              exact ⟨f, g, by simp [textDeltasLoop, hpl, h1, h2]; simpa using hfg⟩
            · obtain ⟨f, g, hfg⟩ := ih (i + 1) t
              exact ⟨f, g, by simp [textDeltasLoop, hpl, h1, h2]; simpa using hfg⟩
        | runCommand rc =>
          obtain ⟨f, g, hfg⟩ := ih (i + 1) t
          exact ⟨f, g, by simp [textDeltasLoop, hpl]; simpa using hfg⟩
        | openBrowserUrl u =>
          obtain ⟨f, g, hfg⟩ := ih (i + 1) t
          exact ⟨f, g, by simp [textDeltasLoop, hpl]; simpa using hfg⟩
        | otherCase nm fpr =>
          obtain ⟨f, g, hfg⟩ := ih (i + 1) t
          exact ⟨f, g, by simp [textDeltasLoop, hpl]; simpa using hfg⟩
      | none =>
        obtain ⟨f, g, hfg⟩ := ih (i + 1) t
        exact ⟨f, g, by simp [textDeltasLoop, hpl]; simpa using hfg⟩

theorem emitStatusChange_events_shape (s : CascadeState) (t : Tracking) :
    ∀ e ∈ (emitStatusChange s t).1, e = .doneEvent ∨ ∃ a b, e = .statusChange a b := by
  intro e he
  unfold emitStatusChange at he
  dsimp only at he
  split at he
  · rw [List.mem_append] at he
    rcases he with hd | hsc
    · split at hd <;> simp_all
    · right; exact ⟨_, _, by simpa using hsc⟩
  · split at he <;> simp_all

theorem newStepsLoop_events_shape :
    ∀ (steps : List (Option Step)) (i : Nat) (m : Nat → Option CortexStepStatus),
      ∀ e ∈ (newStepsLoop steps i m).1, ∃ j st, e = .stepNew j st := by
  intro steps
  induction steps with
  | nil => intro i m e he; simp [newStepsLoop] at he
  | cons hd rest ih =>
    intro i m e he
    cases hd with
    | none => exact ih (i + 1) m e (by simpa [newStepsLoop] using he)
    | some st =>
      rcases hrec : newStepsLoop rest (i + 1) (Function.update m i (some st.status)) with ⟨evs, m2⟩
      simp only [newStepsLoop, hrec] at he
      rcases List.mem_cons.mp he with rfl | htail
      · exact ⟨i, toStepStatus st.status, rfl⟩
      · exact ih (i + 1) _ e (by rw [hrec]; exact htail)

theorem stepUpdateLoop_events_shape :
    ∀ (steps : List (Option Step)) (i : Nat) (t : Tracking),
      ∀ e ∈ (stepUpdateLoop steps i t).1, ∃ j a b, e = .stepUpdate j a b := by
  intro steps
  induction steps with
  | nil => intro i t e he; simp [stepUpdateLoop] at he
  | cons hd rest ih =>
    intro i t e he
    cases hd with
    | none => exact ih (i + 1) t e (by simpa [stepUpdateLoop] using he)
    | some st =>
      rcases hrec : stepUpdateLoop rest (i + 1)
          { t with stepStatusMap := Function.update t.stepStatusMap i (some st.status) } with ⟨evs2, t2⟩
      simp only [stepUpdateLoop, hrec] at he
      rw [List.mem_append] at he
      rcases he with hhd | htail
      · rcases hmap : t.stepStatusMap i with _ | prev
        · simp [hmap] at hhd
        · rw [hmap] at hhd
          split at hhd <;> simp_all
      · exact ih (i + 1) _ e (by rw [hrec]; exact htail)

theorem emitStepEvents_events_shape (steps : List (Option Step)) (t : Tracking) :
    ∀ e ∈ (emitStepEvents steps t).1,
      (∃ j st, e = .stepNew j st) ∨ ∃ j a b, e = .stepUpdate j a b := by
  intro e he
  unfold emitStepEvents at he
  dsimp only at he
  split at he <;> rw [List.mem_append] at he <;> rcases he with hn | hu
  · exact Or.inl (newStepsLoop_events_shape _ _ _ e hn)
  · exact Or.inr (stepUpdateLoop_events_shape _ _ _ e hu)
  · simp at hn
  · exact Or.inr (stepUpdateLoop_events_shape _ _ _ e hu)

theorem approvalLoop_events_shape :
    ∀ (steps : List (Option Step)) (i : Nat) (t : Tracking),
      ∀ e ∈ (approvalLoop steps i t).1, ∃ ty d j a na, e = .approvalNeeded ty d j a na := by
  intro steps
  induction steps with
  | nil => intro i t e he; simp [approvalLoop] at he
  | cons hd rest ih =>
    intro i t e he
    cases hd with
    | none => exact ih (i + 1) t e (by simpa [approvalLoop] using he)
    | some st =>
      by_cases h1 : isInteractiveState st.status
      · by_cases h2 : st.requestedInteraction = none ∧ payloadFilePermissionRequest st = none
        · exact ih (i + 1) t e (by simpa [approvalLoop, h1, h2] using he)
        · by_cases h3 : t.emittedInteractions i
          · exact ih (i + 1) t e (by simpa [approvalLoop, h1, h2, h3] using he)
          · rcases hrec : approvalLoop rest (i + 1)
                { t with emittedInteractions := Function.update t.emittedInteractions i true }
              with ⟨evs2, t2⟩
            rcases hreq : st.requestedInteraction with _ | ic
            · rcases hfpr : payloadFilePermissionRequest st with _ | spec
              · exact absurd ⟨hreq, hfpr⟩ h2
              · simp only [approvalLoop, h1, h2, h3, hreq, hfpr, hrec] at he
                simp at he
                rcases he with he | he
                · exact ⟨_, _, _, _, _, he⟩
                · exact ih (i + 1) _ e (by rw [hrec]; simpa using he)
            · simp only [approvalLoop, h1, h2, h3, hreq, hrec] at he
              simp at he
              rcases he with he | he
              · exact ⟨_, _, _, _, _, he⟩
              · exact ih (i + 1) _ e (by rw [hrec]; simpa using he)
      · exact ih (i + 1) t e (by simpa [approvalLoop, h1] using he)

theorem commandOutputLoop_events_shape :
    ∀ (steps : List (Option Step)) (i : Nat) (t : Tracking),
      ∀ e ∈ (commandOutputLoop steps i t).1, ∃ d f ty j, e = .commandOutput d f ty j := by
  intro steps
  induction steps with
  | nil => intro i t e he; simp [commandOutputLoop] at he
  | cons hd rest ih =>
    intro i t e he
    cases hd with
    | none => exact ih (i + 1) t e (by simpa [commandOutputLoop] using he)
    | some st =>
      cases hrc : payloadRunCommand st with
      | none => exact ih (i + 1) t e (by simpa [commandOutputLoop, hrc] using he)
      | some rc =>
        by_cases h1 : rc.stdout.length > (t.lastEmittedStdout i).length <;>
          by_cases h2 : rc.stderr.length > (t.lastEmittedStderr i).length
        · simp [commandOutputLoop, hrc, h1, h2] at he
          rcases he with he | he | he
          · exact ⟨_, _, _, _, he⟩
          · exact ⟨_, _, _, _, he⟩
          · exact ih (i + 1) _ e he
        · simp [commandOutputLoop, hrc, h1, h2] at he
          rcases he with he | he
          · exact ⟨_, _, _, _, he⟩
          · exact ih (i + 1) _ e he
        · simp [commandOutputLoop, hrc, h1, h2] at he
          rcases he with he | he
          · exact ⟨_, _, _, _, he⟩
          · exact ih (i + 1) _ e he
        · simp [commandOutputLoop, hrc, h1, h2] at he
          exact ih (i + 1) _ e he

theorem textDeltasLoop_events_shape :
    ∀ (steps : List (Option Step)) (i : Nat) (t : Tracking),
      ∀ e ∈ (textDeltasLoop steps i t).1,
        (∃ d f j, e = .textDelta d f j) ∨ ∃ d f j, e = .thinkingDelta d f j := by
  intro steps
  induction steps with
  | nil => intro i t e he; simp [textDeltasLoop] at he
  | cons hd rest ih =>
    intro i t e he
    cases hd with
    | none => exact ih (i + 1) t e (by simpa [textDeltasLoop] using he)
    | some st =>
      rcases hpl : st.step with _ | pl
      · exact ih (i + 1) t e (by simpa [textDeltasLoop, hpl] using he)
      rcases pl with rc | planner | u | nf
      case plannerResponse =>
        by_cases h1 : (plannerResponseText planner).length > (t.lastEmittedText i).length <;>
          by_cases h2 : planner.thinking.length > (t.lastEmittedThinking i).length
        · simp [textDeltasLoop, hpl, h1, h2] at he
          rcases he with he | he | he
          · exact Or.inl ⟨_, _, _, he⟩
          · exact Or.inr ⟨_, _, _, he⟩
          · exact ih (i + 1) _ e he
        · simp [textDeltasLoop, hpl, h1, h2] at he
          rcases he with he | he
          · exact Or.inl ⟨_, _, _, he⟩
          · exact ih (i + 1) _ e he
        · simp [textDeltasLoop, hpl, h1, h2] at he
          rcases he with he | he
          · exact Or.inr ⟨_, _, _, he⟩
          · exact ih (i + 1) _ e he
        · simp [textDeltasLoop, hpl, h1, h2] at he
          exact ih (i + 1) _ e he
      case runCommand =>
        exact ih (i + 1) t e (by simpa [textDeltasLoop, hpl] using he)
      case openBrowserUrl =>
        exact ih (i + 1) t e (by simpa [textDeltasLoop, hpl] using he)
      case otherCase =>
        exact ih (i + 1) t e (by simpa [textDeltasLoop, hpl] using he)

/-! ### Quiescence and establishment lemmas

Running a sub-deriver establishes a stability condition on its own tracking
fields; under that condition a second run emits nothing. -/

theorem emitStatusChange_quiet (s : CascadeState) (t : Tracking)
    (h1 : t.lastStatus = s.status) (h2 : t.lastCascadeStatus = s.status) :
    (emitStatusChange s t).1 = [] := by
  simp [emitStatusChange, h1, h2]

theorem emitStatusChange_establish (s : CascadeState) (t : Tracking) :
    (emitStatusChange s t).2.lastStatus = s.status
    ∧ (emitStatusChange s t).2.lastCascadeStatus = s.status := by
  unfold emitStatusChange
  dsimp only
  split
  · exact ⟨rfl, rfl⟩
  · next h => exact ⟨rfl, (not_ne_iff.mp h).symm⟩

theorem stepUpdateLoop_map_lower :
    ∀ (steps : List (Option Step)) (j : Nat) (t : Tracking) (x : Nat), x < j →
      (stepUpdateLoop steps j t).2.stepStatusMap x = t.stepStatusMap x := by
  intro steps
  induction steps with
  | nil => intro j t x _; rfl
  | cons hd rest ih =>
    intro j t x hx
    cases hd with
    | none => simpa [stepUpdateLoop] using ih (j + 1) t x (Nat.lt_succ_of_lt hx)
    | some st =>
      rcases hrec : stepUpdateLoop rest (j + 1)
          { t with stepStatusMap := Function.update t.stepStatusMap j (some st.status) }
        with ⟨evs2, t2⟩
      have := ih (j + 1)
        { t with stepStatusMap := Function.update t.stepStatusMap j (some st.status) }
        x (Nat.lt_succ_of_lt hx)
      rw [hrec] at this
      simp only [stepUpdateLoop, hrec]
      rw [this]
      exact Function.update_noteq (Nat.ne_of_lt hx) _ _

theorem stepUpdateLoop_map_establish :
    ∀ (steps : List (Option Step)) (j : Nat) (t : Tracking) (k : Nat) (st : Step),
      steps.get? k = some (some st) →
      (stepUpdateLoop steps j t).2.stepStatusMap (j + k) = some st.status := by
  intro steps
  induction steps with
  | nil => intro j t k st h; simp at h
  | cons hd rest ih =>
    intro j t k st h
    cases k with
    | zero =>
      simp at h
      subst h
      rcases hrec : stepUpdateLoop rest (j + 1)
          { t with stepStatusMap := Function.update t.stepStatusMap j (some st.status) }
        with ⟨evs2, t2⟩
      have hlow := stepUpdateLoop_map_lower rest (j + 1)
        { t with stepStatusMap := Function.update t.stepStatusMap j (some st.status) }
        j (Nat.lt_succ_self j)
      rw [hrec] at hlow
      simp only [stepUpdateLoop, hrec]
      simpa using hlow
    | succ k' =>
      have h' : rest.get? k' = some (some st) := by simpa using h
      have harith : j + (k' + 1) = (j + 1) + k' := by omega
      rw [harith]
      cases hd with
      | none =>
        simpa [stepUpdateLoop] using ih (j + 1) t k' st h'
      | some st0 =>
        rcases hrec : stepUpdateLoop rest (j + 1)
            { t with stepStatusMap := Function.update t.stepStatusMap j (some st0.status) }
          with ⟨evs2, t2⟩
        have hth := ih (j + 1)
          { t with stepStatusMap := Function.update t.stepStatusMap j (some st0.status) }
          k' st h'
        rw [hrec] at hth
        simp only [stepUpdateLoop, hrec]
        exact hth

theorem stepUpdateLoop_quiet :
    ∀ (steps : List (Option Step)) (j : Nat) (t : Tracking),
      (∀ k st, steps.get? k = some (some st) → t.stepStatusMap (j + k) = some st.status) →
      (stepUpdateLoop steps j t).1 = [] := by
  intro steps
  induction steps with
  | nil => intro j t _; rfl
  | cons hd rest ih =>
    intro j t hyp
    cases hd with
    | none =>
      have := ih (j + 1) t (fun k st hk => by
        have hh := hyp (k + 1) st (by simpa using hk)
        have harith : j + (k + 1) = (j + 1) + k := by omega
        rw [harith] at hh
        exact hh)
      simpa [stepUpdateLoop] using this
    | some st =>
      have hj : t.stepStatusMap j = some st.status := by
        simpa using hyp 0 st (by simp)
      have hrest := ih (j + 1)
        { t with stepStatusMap := Function.update t.stepStatusMap j (some st.status) }
        (fun k st' hk => by
          have hne : j ≠ j + 1 + k := by omega
          have hh := hyp (k + 1) st' (by simpa using hk)
          have harith : j + (k + 1) = (j + 1) + k := by omega
          rw [harith] at hh
          show Function.update t.stepStatusMap j (some st.status) (j + 1 + k) = some st'.status
          rw [Function.update_noteq (by omega : j + 1 + k ≠ j)]
          exact hh)
      rcases hrec : stepUpdateLoop rest (j + 1)
          { t with stepStatusMap := Function.update t.stepStatusMap j (some st.status) }
        with ⟨evs2, t2⟩
      rw [hrec] at hrest
      simp only [stepUpdateLoop, hrec, hj]
      simp only [ne_eq, not_true_eq_false, if_false, ite_self]
      simpa using hrest

theorem emitStepEvents_quiet (steps : List (Option Step)) (t : Tracking)
    (hc : steps.length ≤ t.lastStepCount)
    (hm : ∀ k st, steps.get? k = some (some st) → t.stepStatusMap k = some st.status) :
    (emitStepEvents steps t).1 = [] := by
  unfold emitStepEvents
  dsimp only
  rw [if_neg (by omega)]
  have := stepUpdateLoop_quiet steps 0 t (fun k st hk => by simpa using hm k st hk)
  simp [this]

theorem emitStepEvents_establish (steps : List (Option Step)) (t : Tracking) :
    steps.length ≤ (emitStepEvents steps t).2.lastStepCount
    ∧ ∀ k st, steps.get? k = some (some st) →
        (emitStepEvents steps t).2.stepStatusMap k = some st.status := by
  unfold emitStepEvents
  dsimp only
  split
  · constructor
    · obtain ⟨m, hm⟩ := stepUpdateLoop_tracking steps 0
        { t with stepStatusMap := (newStepsLoop (steps.drop t.lastStepCount) t.lastStepCount t.stepStatusMap).2,
                 lastStepCount := steps.length }
      simp [hm]
    · intro k st hk
      have := stepUpdateLoop_map_establish steps 0
        { t with stepStatusMap := (newStepsLoop (steps.drop t.lastStepCount) t.lastStepCount t.stepStatusMap).2,
                 lastStepCount := steps.length } k st hk
      simpa using this
  · next h =>
    constructor
    · obtain ⟨m, hm⟩ := stepUpdateLoop_tracking steps 0 t
      simp [hm]
      omega
    · intro k st hk
      have := stepUpdateLoop_map_establish steps 0 t k st hk
      simpa using this

theorem approvalLoop_emitted_lower :
    ∀ (steps : List (Option Step)) (j : Nat) (t : Tracking) (x : Nat), x < j →
      (approvalLoop steps j t).2.emittedInteractions x = t.emittedInteractions x := by
  intro steps
  induction steps with
  | nil => intro j t x _; rfl
  | cons hd rest ih =>
    intro j t x hx
    cases hd with
    | none => simpa [approvalLoop] using ih (j + 1) t x (Nat.lt_succ_of_lt hx)
    | some st =>
      by_cases h1 : isInteractiveState st.status
      · by_cases h2 : st.requestedInteraction = none ∧ payloadFilePermissionRequest st = none
        · simpa [approvalLoop, h1, h2] using ih (j + 1) t x (Nat.lt_succ_of_lt hx)
        · by_cases h3 : t.emittedInteractions j
          · simpa [approvalLoop, h1, h2, h3] using ih (j + 1) t x (Nat.lt_succ_of_lt hx)
          · rcases hrec : approvalLoop rest (j + 1)
                { t with emittedInteractions := Function.update t.emittedInteractions j true }
              with ⟨evs2, t2⟩
            have hlow := ih (j + 1)
              { t with emittedInteractions := Function.update t.emittedInteractions j true }
              x (Nat.lt_succ_of_lt hx)
            rw [hrec] at hlow
            rcases hreq : st.requestedInteraction with _ | ic
            · rcases hfpr : payloadFilePermissionRequest st with _ | spec
              · exact absurd ⟨hreq, hfpr⟩ h2
              · simp [approvalLoop, h1, h2, h3, hreq, hfpr, hrec]
                rw [hlow]
                exact Function.update_noteq (Nat.ne_of_lt hx) _ _
            · simp [approvalLoop, h1, h2, h3, hreq, hrec]
              rw [hlow]
              exact Function.update_noteq (Nat.ne_of_lt hx) _ _
      · simpa [approvalLoop, h1] using ih (j + 1) t x (Nat.lt_succ_of_lt hx)

theorem approvalLoop_emitted_mono :
    ∀ (steps : List (Option Step)) (j : Nat) (t : Tracking) (x : Nat),
      t.emittedInteractions x = true →
      (approvalLoop steps j t).2.emittedInteractions x = true := by
  intro steps
  induction steps with
  | nil => intro j t x hx; exact hx
  | cons hd rest ih =>
    intro j t x hx
    cases hd with
    | none => simpa [approvalLoop] using ih (j + 1) t x hx
    | some st =>
      by_cases h1 : isInteractiveState st.status
      · by_cases h2 : st.requestedInteraction = none ∧ payloadFilePermissionRequest st = none
        · simpa [approvalLoop, h1, h2] using ih (j + 1) t x hx
        · by_cases h3 : t.emittedInteractions j
          · simpa [approvalLoop, h1, h2, h3] using ih (j + 1) t x hx
          · have hup : (Function.update t.emittedInteractions j true) x = true := by
              rcases eq_or_ne x j with rfl | hne
              · simp
              · rw [Function.update_noteq hne]; exact hx
            have := ih (j + 1)
              { t with emittedInteractions := Function.update t.emittedInteractions j true } x hup
            rcases hreq : st.requestedInteraction with _ | ic
            · rcases hfpr : payloadFilePermissionRequest st with _ | spec
              · exact absurd ⟨hreq, hfpr⟩ h2
              · simpa [approvalLoop, h1, h2, h3, hreq, hfpr] using this
            · simpa [approvalLoop, h1, h2, h3, hreq] using this
      · simpa [approvalLoop, h1] using ih (j + 1) t x hx

theorem approvalLoop_establish :
    ∀ (steps : List (Option Step)) (j : Nat) (t : Tracking) (k : Nat) (st : Step),
      steps.get? k = some (some st) →
      isInteractiveState st.status = true →
      ¬(st.requestedInteraction = none ∧ payloadFilePermissionRequest st = none) →
      (approvalLoop steps j t).2.emittedInteractions (j + k) = true := by
  intro steps
  induction steps with
  | nil => intro j t k st h _ _; simp at h
  | cons hd rest ih =>
    intro j t k st h h1 h2
    cases k with
    | zero =>
      simp at h
      subst h
      by_cases h3 : t.emittedInteractions j
      · have := approvalLoop_emitted_mono rest (j + 1) t j h3
        simpa [approvalLoop, h1, h2, h3] using this
      · have hup : (Function.update t.emittedInteractions j true) j = true := by simp
        have := approvalLoop_emitted_mono rest (j + 1)
          { t with emittedInteractions := Function.update t.emittedInteractions j true } j hup
        rcases hreq : st.requestedInteraction with _ | ic
        · rcases hfpr : payloadFilePermissionRequest st with _ | spec
          · exact absurd ⟨hreq, hfpr⟩ h2
          · simpa [approvalLoop, h1, h2, h3, hreq, hfpr] using this
        · simpa [approvalLoop, h1, h2, h3, hreq] using this
    | succ k' =>
      have h' : rest.get? k' = some (some st) := by simpa using h
      have harith : j + (k' + 1) = (j + 1) + k' := by omega
      rw [harith]
      cases hd with
      | none => simpa [approvalLoop] using ih (j + 1) t k' st h' h1 h2
      | some st0 =>
        by_cases g1 : isInteractiveState st0.status
        · by_cases g2 : st0.requestedInteraction = none ∧ payloadFilePermissionRequest st0 = none
          · simpa [approvalLoop, g1, g2] using ih (j + 1) t k' st h' h1 h2
          · by_cases g3 : t.emittedInteractions j
            · simpa [approvalLoop, g1, g2, g3] using ih (j + 1) t k' st h' h1 h2
            · have := ih (j + 1)
                { t with emittedInteractions := Function.update t.emittedInteractions j true }
                k' st h' h1 h2
              rcases hreq : st0.requestedInteraction with _ | ic
              · rcases hfpr : payloadFilePermissionRequest st0 with _ | spec
                · exact absurd ⟨hreq, hfpr⟩ g2
                · simpa [approvalLoop, g1, g2, g3, hreq, hfpr] using this
              · simpa [approvalLoop, g1, g2, g3, hreq] using this
        · simpa [approvalLoop, g1] using ih (j + 1) t k' st h' h1 h2

theorem approvalLoop_quiet :
    ∀ (steps : List (Option Step)) (j : Nat) (t : Tracking),
      (∀ k st, steps.get? k = some (some st) →
        isInteractiveState st.status = true →
        ¬(st.requestedInteraction = none ∧ payloadFilePermissionRequest st = none) →
        t.emittedInteractions (j + k) = true) →
      (approvalLoop steps j t).1 = [] := by
  intro steps
  induction steps with
  | nil => intro j t _; rfl
  | cons hd rest ih =>
    intro j t hyp
    have hypRest : ∀ k st, rest.get? k = some (some st) →
        isInteractiveState st.status = true →
        ¬(st.requestedInteraction = none ∧ payloadFilePermissionRequest st = none) →
        t.emittedInteractions ((j + 1) + k) = true := by
      intro k st hk hh1 hh2
      have := hyp (k + 1) st (by simpa using hk) hh1 hh2
      have harith : j + (k + 1) = (j + 1) + k := by omega
      rw [harith] at this
      exact this
    cases hd with
    | none => simpa [approvalLoop] using ih (j + 1) t hypRest
    | some st =>
      by_cases h1 : isInteractiveState st.status
      · by_cases h2 : st.requestedInteraction = none ∧ payloadFilePermissionRequest st = none
        · simpa [approvalLoop, h1, h2] using ih (j + 1) t hypRest
        · have h3 : t.emittedInteractions j = true := by
            simpa using hyp 0 st (by simp) h1 h2
          simpa [approvalLoop, h1, h2, h3] using ih (j + 1) t hypRest
      · simpa [approvalLoop, h1] using ih (j + 1) t hypRest

theorem commandOutputLoop_lower :
    ∀ (steps : List (Option Step)) (j : Nat) (t : Tracking) (x : Nat), x < j →
      (commandOutputLoop steps j t).2.lastEmittedStdout x = t.lastEmittedStdout x
      ∧ (commandOutputLoop steps j t).2.lastEmittedStderr x = t.lastEmittedStderr x := by
  intro steps
  induction steps with
  | nil => intro j t x _; exact ⟨rfl, rfl⟩
  | cons hd rest ih =>
    intro j t x hx
    cases hd with
    | none => simpa [commandOutputLoop] using ih (j + 1) t x (Nat.lt_succ_of_lt hx)
    | some st =>
      cases hrc : payloadRunCommand st with
      | none => simpa [commandOutputLoop, hrc] using ih (j + 1) t x (Nat.lt_succ_of_lt hx)
      | some rc =>
        have hne : x ≠ j := Nat.ne_of_lt hx
        by_cases h1 : rc.stdout.length > (t.lastEmittedStdout j).length <;>
          by_cases h2 : rc.stderr.length > (t.lastEmittedStderr j).length
        · have := ih (j + 1)
            { t with lastEmittedStdout := Function.update t.lastEmittedStdout j rc.stdout,
                     lastEmittedStderr := Function.update t.lastEmittedStderr j rc.stderr }
            x (Nat.lt_succ_of_lt hx)
          simpa [commandOutputLoop, hrc, h1, h2, Function.update_noteq hne] using this
        · have := ih (j + 1)
            { t with lastEmittedStdout := Function.update t.lastEmittedStdout j rc.stdout }
            x (Nat.lt_succ_of_lt hx)
          simpa [commandOutputLoop, hrc, h1, h2, Function.update_noteq hne] using this
        · have := ih (j + 1)
            { t with lastEmittedStderr := Function.update t.lastEmittedStderr j rc.stderr }
            x (Nat.lt_succ_of_lt hx)
          simpa [commandOutputLoop, hrc, h1, h2, Function.update_noteq hne] using this
        · have := ih (j + 1) t x (Nat.lt_succ_of_lt hx)
          simpa [commandOutputLoop, hrc, h1, h2] using this

theorem commandOutputLoop_establish :
    ∀ (steps : List (Option Step)) (j : Nat) (t : Tracking) (k : Nat) (st : Step)
      (rc : RunCommandPayload),
      steps.get? k = some (some st) → payloadRunCommand st = some rc →
      rc.stdout.length ≤ ((commandOutputLoop steps j t).2.lastEmittedStdout (j + k)).length
      ∧ rc.stderr.length ≤ ((commandOutputLoop steps j t).2.lastEmittedStderr (j + k)).length := by
  intro steps
  induction steps with
  | nil => intro j t k st rc h _; simp at h
  | cons hd rest ih =>
    intro j t k st rc h hrc
    cases k with
    | zero =>
      simp at h
      subst h
      rw [Nat.add_zero]
      by_cases h1 : rc.stdout.length > (t.lastEmittedStdout j).length <;>
        by_cases h2 : rc.stderr.length > (t.lastEmittedStderr j).length
      · have hlow := commandOutputLoop_lower rest (j + 1)
          { t with lastEmittedStdout := Function.update t.lastEmittedStdout j rc.stdout,
                   lastEmittedStderr := Function.update t.lastEmittedStderr j rc.stderr }
          j (Nat.lt_succ_self j)
        simp [commandOutputLoop, hrc, h1, h2, hlow.1, hlow.2]
      · have hlow := commandOutputLoop_lower rest (j + 1)
          { t with lastEmittedStdout := Function.update t.lastEmittedStdout j rc.stdout }
          j (Nat.lt_succ_self j)
        simp [commandOutputLoop, hrc, h1, h2, hlow.1, hlow.2]
        omega
      · have hlow := commandOutputLoop_lower rest (j + 1)
          { t with lastEmittedStderr := Function.update t.lastEmittedStderr j rc.stderr }
          j (Nat.lt_succ_self j)
        simp [commandOutputLoop, hrc, h1, h2, hlow.1, hlow.2]
        omega
      · have hlow := commandOutputLoop_lower rest (j + 1) t j (Nat.lt_succ_self j)
        simp [commandOutputLoop, hrc, h1, h2, hlow.1, hlow.2]
        omega
    | succ k' =>
      have h' : rest.get? k' = some (some st) := by simpa using h
      have harith : j + (k' + 1) = (j + 1) + k' := by omega
      rw [harith]
      cases hd with
      | none => simpa [commandOutputLoop] using ih (j + 1) t k' st rc h' hrc
      | some st0 =>
        cases hrc0 : payloadRunCommand st0 with
        | none => simpa [commandOutputLoop, hrc0] using ih (j + 1) t k' st rc h' hrc
        | some rc0 =>
          by_cases h1 : rc0.stdout.length > (t.lastEmittedStdout j).length <;>
            by_cases h2 : rc0.stderr.length > (t.lastEmittedStderr j).length
          · have := ih (j + 1)
              { t with lastEmittedStdout := Function.update t.lastEmittedStdout j rc0.stdout,
                       lastEmittedStderr := Function.update t.lastEmittedStderr j rc0.stderr }
              k' st rc h' hrc
            simpa [commandOutputLoop, hrc0, h1, h2] using this
          · have := ih (j + 1)
              { t with lastEmittedStdout := Function.update t.lastEmittedStdout j rc0.stdout }
              k' st rc h' hrc
            simpa [commandOutputLoop, hrc0, h1, h2] using this
          · have := ih (j + 1)
              { t with lastEmittedStderr := Function.update t.lastEmittedStderr j rc0.stderr }
              k' st rc h' hrc
            simpa [commandOutputLoop, hrc0, h1, h2] using this
          · have := ih (j + 1) t k' st rc h' hrc
            simpa [commandOutputLoop, hrc0, h1, h2] using this

theorem commandOutputLoop_quiet :
    ∀ (steps : List (Option Step)) (j : Nat) (t : Tracking),
      (∀ k st rc, steps.get? k = some (some st) → payloadRunCommand st = some rc →
        rc.stdout.length ≤ (t.lastEmittedStdout (j + k)).length
        ∧ rc.stderr.length ≤ (t.lastEmittedStderr (j + k)).length) →
      (commandOutputLoop steps j t).1 = [] := by
  intro steps
  induction steps with
  | nil => intro j t _; rfl
  | cons hd rest ih =>
    intro j t hyp
    have hypRest : ∀ k st rc, rest.get? k = some (some st) → payloadRunCommand st = some rc →
        rc.stdout.length ≤ (t.lastEmittedStdout ((j + 1) + k)).length
        ∧ rc.stderr.length ≤ (t.lastEmittedStderr ((j + 1) + k)).length := by
      intro k st rc hk hc
      have := hyp (k + 1) st rc (by simpa using hk) hc
      have harith : j + (k + 1) = (j + 1) + k := by omega
      rw [harith] at this
      exact this
    cases hd with
    | none => simpa [commandOutputLoop] using ih (j + 1) t hypRest
    | some st =>
      cases hrc : payloadRunCommand st with
      | none => simpa [commandOutputLoop, hrc] using ih (j + 1) t hypRest
      | some rc =>
        have hk0 := hyp 0 st rc (by simp) hrc
        rw [Nat.add_zero] at hk0
        have h1 : ¬ (rc.stdout.length > (t.lastEmittedStdout j).length) := by omega
        have h2 : ¬ (rc.stderr.length > (t.lastEmittedStderr j).length) := by omega
        simpa [commandOutputLoop, hrc, h1, h2] using ih (j + 1) t hypRest

theorem textDeltasLoop_lower :
    ∀ (steps : List (Option Step)) (j : Nat) (t : Tracking) (x : Nat), x < j →
      (textDeltasLoop steps j t).2.lastEmittedText x = t.lastEmittedText x
      ∧ (textDeltasLoop steps j t).2.lastEmittedThinking x = t.lastEmittedThinking x := by
  intro steps
  induction steps with
  | nil => intro j t x _; exact ⟨rfl, rfl⟩
  | cons hd rest ih =>
    intro j t x hx
    have hne : x ≠ j := Nat.ne_of_lt hx
    cases hd with
    | none => simpa [textDeltasLoop] using ih (j + 1) t x (Nat.lt_succ_of_lt hx)
    | some st =>
      rcases hpl : st.step with _ | pl
      · simpa [textDeltasLoop, hpl] using ih (j + 1) t x (Nat.lt_succ_of_lt hx)
      rcases pl with rc | planner | u | nf
      case plannerResponse =>
        by_cases h1 : (plannerResponseText planner).length > (t.lastEmittedText j).length <;>
          by_cases h2 : planner.thinking.length > (t.lastEmittedThinking j).length
        · have := ih (j + 1)
            { t with lastEmittedText := Function.update t.lastEmittedText j (plannerResponseText planner),
                     lastEmittedThinking := Function.update t.lastEmittedThinking j planner.thinking }
            x (Nat.lt_succ_of_lt hx)
          simpa [textDeltasLoop, hpl, h1, h2, Function.update_noteq hne] using this
        · have := ih (j + 1)
            { t with lastEmittedText := Function.update t.lastEmittedText j (plannerResponseText planner) }
            x (Nat.lt_succ_of_lt hx)
          simpa [textDeltasLoop, hpl, h1, h2, Function.update_noteq hne] using this
        · have := ih (j + 1)
            { t with lastEmittedThinking := Function.update t.lastEmittedThinking j planner.thinking }
            x (Nat.lt_succ_of_lt hx)
          simpa [textDeltasLoop, hpl, h1, h2, Function.update_noteq hne] using this
        · have := ih (j + 1) t x (Nat.lt_succ_of_lt hx)
          simpa [textDeltasLoop, hpl, h1, h2] using this
      case runCommand =>
        simpa [textDeltasLoop, hpl] using ih (j + 1) t x (Nat.lt_succ_of_lt hx)
      case openBrowserUrl =>
        simpa [textDeltasLoop, hpl] using ih (j + 1) t x (Nat.lt_succ_of_lt hx)
      case otherCase =>
        simpa [textDeltasLoop, hpl] using ih (j + 1) t x (Nat.lt_succ_of_lt hx)

theorem textDeltasLoop_establish :
    ∀ (steps : List (Option Step)) (j : Nat) (t : Tracking) (k : Nat) (st : Step)
      (planner : PlannerResponsePayload),
      steps.get? k = some (some st) → st.step = some (.plannerResponse planner) →
      (plannerResponseText planner).length ≤ ((textDeltasLoop steps j t).2.lastEmittedText (j + k)).length
      ∧ planner.thinking.length ≤ ((textDeltasLoop steps j t).2.lastEmittedThinking (j + k)).length := by
  intro steps
  induction steps with
  | nil => intro j t k st planner h _; simp at h
  | cons hd rest ih =>
    intro j t k st planner h hpl
    cases k with
    | zero =>
      simp at h
      subst h
      rw [Nat.add_zero]
      by_cases h1 : (plannerResponseText planner).length > (t.lastEmittedText j).length <;>
        by_cases h2 : planner.thinking.length > (t.lastEmittedThinking j).length
      · have hlow := textDeltasLoop_lower rest (j + 1)
          { t with lastEmittedText := Function.update t.lastEmittedText j (plannerResponseText planner),
                   lastEmittedThinking := Function.update t.lastEmittedThinking j planner.thinking }
          j (Nat.lt_succ_self j)
        simp [textDeltasLoop, hpl, h1, h2, hlow.1, hlow.2]
      · have hlow := textDeltasLoop_lower rest (j + 1)
          { t with lastEmittedText := Function.update t.lastEmittedText j (plannerResponseText planner) }
          j (Nat.lt_succ_self j)
        simp [textDeltasLoop, hpl, h1, h2, hlow.1, hlow.2]
        omega
      · have hlow := textDeltasLoop_lower rest (j + 1)
          { t with lastEmittedThinking := Function.update t.lastEmittedThinking j planner.thinking }
          j (Nat.lt_succ_self j)
        simp [textDeltasLoop, hpl, h1, h2, hlow.1, hlow.2]
        omega
      · have hlow := textDeltasLoop_lower rest (j + 1) t j (Nat.lt_succ_self j)
        simp [textDeltasLoop, hpl, h1, h2, hlow.1, hlow.2]
        omega
    | succ k' =>
      have h' : rest.get? k' = some (some st) := by simpa using h
      have harith : j + (k' + 1) = (j + 1) + k' := by omega
      rw [harith]
      cases hd with
      | none => simpa [textDeltasLoop] using ih (j + 1) t k' st planner h' hpl
      | some st0 =>
        rcases hpl0 : st0.step with _ | pl0
        · simpa [textDeltasLoop, hpl0] using ih (j + 1) t k' st planner h' hpl
        rcases pl0 with rc | planner0 | u | nf
        case plannerResponse =>
          by_cases h1 : (plannerResponseText planner0).length > (t.lastEmittedText j).length <;>
            by_cases h2 : planner0.thinking.length > (t.lastEmittedThinking j).length
          · have := ih (j + 1)
              { t with lastEmittedText := Function.update t.lastEmittedText j (plannerResponseText planner0),
                       lastEmittedThinking := Function.update t.lastEmittedThinking j planner0.thinking }
              k' st planner h' hpl
            simpa [textDeltasLoop, hpl0, h1, h2] using this
          · have := ih (j + 1)
              { t with lastEmittedText := Function.update t.lastEmittedText j (plannerResponseText planner0) }
              k' st planner h' hpl
            simpa [textDeltasLoop, hpl0, h1, h2] using this
          · have := ih (j + 1)
              { t with lastEmittedThinking := Function.update t.lastEmittedThinking j planner0.thinking }
              k' st planner h' hpl
            simpa [textDeltasLoop, hpl0, h1, h2] using this
          · have := ih (j + 1) t k' st planner h' hpl
            simpa [textDeltasLoop, hpl0, h1, h2] using this
        case runCommand =>
          simpa [textDeltasLoop, hpl0] using ih (j + 1) t k' st planner h' hpl
        case openBrowserUrl =>
          simpa [textDeltasLoop, hpl0] using ih (j + 1) t k' st planner h' hpl
        case otherCase =>
          simpa [textDeltasLoop, hpl0] using ih (j + 1) t k' st planner h' hpl

theorem textDeltasLoop_quiet :
    ∀ (steps : List (Option Step)) (j : Nat) (t : Tracking),
      (∀ k st planner, steps.get? k = some (some st) →
        st.step = some (.plannerResponse planner) →
        (plannerResponseText planner).length ≤ (t.lastEmittedText (j + k)).length
        ∧ planner.thinking.length ≤ (t.lastEmittedThinking (j + k)).length) →
      (textDeltasLoop steps j t).1 = [] := by
  intro steps
  induction steps with
  | nil => intro j t _; rfl
  | cons hd rest ih =>
    intro j t hyp
    have hypRest : ∀ k st planner, rest.get? k = some (some st) →
        st.step = some (.plannerResponse planner) →
        (plannerResponseText planner).length ≤ (t.lastEmittedText ((j + 1) + k)).length
        ∧ planner.thinking.length ≤ (t.lastEmittedThinking ((j + 1) + k)).length := by
      intro k st planner hk hc
      have := hyp (k + 1) st planner (by simpa using hk) hc
      have harith : j + (k + 1) = (j + 1) + k := by omega
      rw [harith] at this
      exact this
    cases hd with
    | none => simpa [textDeltasLoop] using ih (j + 1) t hypRest
    | some st =>
      rcases hpl : st.step with _ | pl
      · simpa [textDeltasLoop, hpl] using ih (j + 1) t hypRest
      rcases pl with rc | planner | u | nf
      case plannerResponse =>
        have hk0 := hyp 0 st planner (by simp) hpl
        rw [Nat.add_zero] at hk0
        have h1 : ¬ ((plannerResponseText planner).length > (t.lastEmittedText j).length) := by omega
        have h2 : ¬ (planner.thinking.length > (t.lastEmittedThinking j).length) := by omega
        simpa [textDeltasLoop, hpl, h1, h2] using ih (j + 1) t hypRest
      case runCommand =>
        simpa [textDeltasLoop, hpl] using ih (j + 1) t hypRest
      case openBrowserUrl =>
        simpa [textDeltasLoop, hpl] using ih (j + 1) t hypRest
      case otherCase =>
        simpa [textDeltasLoop, hpl] using ih (j + 1) t hypRest

/-- The tracking state is stable for a projection: every per-index cache
already reflects the projection, so no deriver has anything left to emit.
Running `emitEvents` once always establishes this
(`emitEvents_establish`), and under it `emitEvents` emits nothing
(`emitEvents_quiet`). -/
def DeriverStable (s : CascadeState) (t : Tracking) : Prop :=
  t.lastStatus = s.status ∧ t.lastCascadeStatus = s.status ∧
  ∀ traj, s.trajectory = some traj →
    (traj.steps.length ≤ t.lastStepCount
     ∧ (∀ k st, traj.steps.get? k = some (some st) → t.stepStatusMap k = some st.status)
     ∧ (∀ k st, traj.steps.get? k = some (some st) → isInteractiveState st.status = true →
         ¬(st.requestedInteraction = none ∧ payloadFilePermissionRequest st = none) →
         t.emittedInteractions k = true)
     ∧ (∀ k st rc, traj.steps.get? k = some (some st) → payloadRunCommand st = some rc →
         rc.stdout.length ≤ (t.lastEmittedStdout k).length
         ∧ rc.stderr.length ≤ (t.lastEmittedStderr k).length)
     ∧ (∀ k st planner, traj.steps.get? k = some (some st) →
         st.step = some (.plannerResponse planner) →
         (plannerResponseText planner).length ≤ (t.lastEmittedText k).length
         ∧ planner.thinking.length ≤ (t.lastEmittedThinking k).length))

theorem emitEvents_quiet (s : CascadeState) (t : Tracking) (h : DeriverStable s t) :
    (emitEvents s t).1 = [] := by
  obtain ⟨h1, h2, h3⟩ := h
  rcases hsc : emitStatusChange s t with ⟨evs0, t0⟩
  have hevs0 : evs0 = [] := by
    have := emitStatusChange_quiet s t h1 h2
    rw [hsc] at this
    exact this
  obtain ⟨a, b, hab⟩ : ∃ a b, t0 = { t with lastStatus := a, lastCascadeStatus := b } := by
    obtain ⟨a, b, hab⟩ := emitStatusChange_tracking s t
    rw [hsc] at hab
    exact ⟨a, b, hab⟩
  rcases htraj : s.trajectory with _ | traj
  · simp [emitEvents, hsc, htraj, hevs0]
  · obtain ⟨hc, hm, ha, ho, htx⟩ := h3 traj htraj
    rcases hse : emitStepEvents traj.steps t0 with ⟨evs1, t1a⟩
    have hevs1 : evs1 = [] := by
      have := emitStepEvents_quiet traj.steps t0
        (by rw [hab]; exact hc)
        (by intro k st hk; rw [hab]; exact hm k st hk)
      rw [hse] at this
      exact this
    obtain ⟨c1, m1, hcm⟩ : ∃ c1 m1, t1a = { t0 with lastStepCount := c1, stepStatusMap := m1 } := by
      obtain ⟨c1, m1, h'⟩ := emitStepEvents_tracking traj.steps t0
      rw [hse] at h'
      exact ⟨c1, m1, h'⟩
    rcases hap : emitApprovalRequests traj.steps t1a with ⟨evs2, t2a⟩
    have hap' : approvalLoop traj.steps 0 t1a = (evs2, t2a) := hap
    have hevs2 : evs2 = [] := by
      have := approvalLoop_quiet traj.steps 0 t1a (by
        intro k st hk hi hp
        rw [hcm, hab]
        simpa using ha k st hk hi hp)
      rw [hap'] at this
      exact this
    obtain ⟨f2, hf2⟩ : ∃ f2, t2a = { t1a with emittedInteractions := f2 } := by
      obtain ⟨f2, h'⟩ := approvalLoop_tracking traj.steps 0 t1a
      rw [hap'] at h'
      exact ⟨f2, h'⟩
    rcases hco : emitCommandOutputDeltas traj.steps t2a with ⟨evs3, t3a⟩
    have hco' : commandOutputLoop traj.steps 0 t2a = (evs3, t3a) := hco
    have hevs3 : evs3 = [] := by
      have := commandOutputLoop_quiet traj.steps 0 t2a (by
        intro k st rc hk hrc
        rw [hf2, hcm, hab]
        simpa using ho k st rc hk hrc)
      rw [hco'] at this
      exact this
    obtain ⟨f3, g3, hf3⟩ :
        ∃ f3 g3, t3a = { t2a with lastEmittedStdout := f3, lastEmittedStderr := g3 } := by
      obtain ⟨f3, g3, h'⟩ := commandOutputLoop_tracking traj.steps 0 t2a
      rw [hco'] at h'
      exact ⟨f3, g3, h'⟩
    rcases htd : emitTextDeltas traj.steps t3a with ⟨evs4, t4a⟩
    have htd' : textDeltasLoop traj.steps 0 t3a = (evs4, t4a) := htd
    have hevs4 : evs4 = [] := by
      have := textDeltasLoop_quiet traj.steps 0 t3a (by
        intro k st planner hk hpl
        rw [hf3, hf2, hcm, hab]
        simpa using htx k st planner hk hpl)
      rw [htd'] at this
      exact this
    simp only [emitEvents, hsc, htraj, hse, hap, hco, htd]
    simp [hevs0, hevs1, hevs2, hevs3, hevs4]

theorem emitEvents_establish (s : CascadeState) (t : Tracking) :
    DeriverStable s (emitEvents s t).2 := by
  rcases hsc : emitStatusChange s t with ⟨evs0, t0⟩
  have hest0 : t0.lastStatus = s.status ∧ t0.lastCascadeStatus = s.status := by
    have := emitStatusChange_establish s t
    rw [hsc] at this
    exact this
  rcases htraj : s.trajectory with _ | traj
  · refine ⟨?_, ?_, ?_⟩
    · simp [emitEvents, hsc, htraj, hest0.1]
    · simp [emitEvents, hsc, htraj, hest0.2]
    · intro traj' h'
      rw [htraj] at h'
      exact absurd h' (by simp)
  · rcases hse : emitStepEvents traj.steps t0 with ⟨evs1, t1a⟩
    have hest1 : traj.steps.length ≤ t1a.lastStepCount
        ∧ ∀ k st, traj.steps.get? k = some (some st) → t1a.stepStatusMap k = some st.status := by
      have := emitStepEvents_establish traj.steps t0
      rw [hse] at this
      exact this
    obtain ⟨c1, m1, hcm⟩ : ∃ c1 m1, t1a = { t0 with lastStepCount := c1, stepStatusMap := m1 } := by
      obtain ⟨c1, m1, h'⟩ := emitStepEvents_tracking traj.steps t0
      rw [hse] at h'
      exact ⟨c1, m1, h'⟩
    rcases hap : emitApprovalRequests traj.steps t1a with ⟨evs2, t2a⟩
    have hap' : approvalLoop traj.steps 0 t1a = (evs2, t2a) := hap
    have hest2 : ∀ k st, traj.steps.get? k = some (some st) →
        isInteractiveState st.status = true →
        ¬(st.requestedInteraction = none ∧ payloadFilePermissionRequest st = none) →
        t2a.emittedInteractions k = true := by
      intro k st hk hi hp
      have := approvalLoop_establish traj.steps 0 t1a k st hk hi hp
      rw [hap'] at this
      simpa using this
    obtain ⟨f2, hf2⟩ : ∃ f2, t2a = { t1a with emittedInteractions := f2 } := by
      obtain ⟨f2, h'⟩ := approvalLoop_tracking traj.steps 0 t1a
      rw [hap'] at h'
      exact ⟨f2, h'⟩
    rcases hco : emitCommandOutputDeltas traj.steps t2a with ⟨evs3, t3a⟩
    have hco' : commandOutputLoop traj.steps 0 t2a = (evs3, t3a) := hco
    have hest3 : ∀ k st rc, traj.steps.get? k = some (some st) →
        payloadRunCommand st = some rc →
        rc.stdout.length ≤ (t3a.lastEmittedStdout k).length
        ∧ rc.stderr.length ≤ (t3a.lastEmittedStderr k).length := by
      intro k st rc hk hrc
      have := commandOutputLoop_establish traj.steps 0 t2a k st rc hk hrc
      rw [hco'] at this
      simpa using this
    obtain ⟨f3, g3, hf3⟩ :
        ∃ f3 g3, t3a = { t2a with lastEmittedStdout := f3, lastEmittedStderr := g3 } := by
      obtain ⟨f3, g3, h'⟩ := commandOutputLoop_tracking traj.steps 0 t2a
      rw [hco'] at h'
      exact ⟨f3, g3, h'⟩
    rcases htd : emitTextDeltas traj.steps t3a with ⟨evs4, t4a⟩
    have htd' : textDeltasLoop traj.steps 0 t3a = (evs4, t4a) := htd
    have hest4 : ∀ k st planner, traj.steps.get? k = some (some st) →
        st.step = some (.plannerResponse planner) →
        (plannerResponseText planner).length ≤ (t4a.lastEmittedText k).length
        ∧ planner.thinking.length ≤ (t4a.lastEmittedThinking k).length := by
      intro k st planner hk hpl
      have := textDeltasLoop_establish traj.steps 0 t3a k st planner hk hpl
      rw [htd'] at this
      simpa using this
    obtain ⟨f4, g4, hf4⟩ :
        ∃ f4 g4, t4a = { t3a with lastEmittedText := f4, lastEmittedThinking := g4 } := by
      obtain ⟨f4, g4, h'⟩ := textDeltasLoop_tracking traj.steps 0 t3a
      rw [htd'] at h'
      exact ⟨f4, g4, h'⟩
    have hres : (emitEvents s t).2 = t4a := by
      simp [emitEvents, hsc, htraj, hse, hap, hco, htd]
    rw [hres]
    refine ⟨?_, ?_, ?_⟩
    · rw [hf4, hf3, hf2, hcm]
      exact hest0.1
    · rw [hf4, hf3, hf2, hcm]
      exact hest0.2
    · intro traj' h'
      rw [htraj] at h'
      injection h' with h'
      subst h'
      refine ⟨?_, ?_, ?_, ?_, ?_⟩
      · rw [hf4, hf3, hf2]
        exact hest1.1
      · intro k st hk
        rw [hf4, hf3, hf2]
        exact hest1.2 k st hk
      · intro k st hk hi hp
        rw [hf4, hf3]
        exact hest2 k st hk hi hp
      · intro k st rc hk hrc
        rw [hf4]
        exact hest3 k st rc hk hrc
      · intro k st planner hk hpl
        exact hest4 k st planner hk hpl

/-- C8: applying a diff whose field-operation list is empty leaves the
projection unchanged (first conjunct — the applier's loop body never runs),
and re-deriving events against the unchanged projection with the tracking
state left by the previous derivation emits zero events of the exposed set
(second conjunct — running `emitEvents` twice in a row from any tracking
state produces an empty second event list). -/
theorem c8_empty_diff_noop :
    (∀ (target : JSVal) (type : PMessageType),
        applyMessageDiff target (.mk []) type = .ok target)
    ∧ (∀ (s : CascadeState) (t : Tracking),
        (emitEvents s ((emitEvents s t).2)).1 = []) :=
  ⟨fun _ _ => rfl,
   fun s t => emitEvents_quiet s (emitEvents s t).2 (emitEvents_establish s t)⟩

/-! ### Counting approval events (for the at-most-once guarantee) -/

/-- The event list built by the emit branch of `approvalLoop` for one step
(the same computation as the branch, factored out for the lemmas below). -/
def approvalHeadEvents (st : Step) (i : Nat) : List Event :=
  let rc := payloadRunCommand st
  let autoRun := match rc with | some rc => rc.shouldAutoRun | none => false
  let commandLine :=
    match rc with
    | some rc => if rc.proposedCommandLine ≠ "" then rc.proposedCommandLine else rc.commandLine
    | none => ""
  let needsApproval := if st.status = .waiting then true else !autoRun
  let request : Option (String × String) :=
    match st.requestedInteraction with
    | some ic => some (buildApprovalRequest st commandLine ic)
    | none =>
        match payloadFilePermissionRequest st with
        | some spec => some (buildInlineFilePermissionRequest spec)
        | none => none
  match request with
  | some (ty, desc) => [.approvalNeeded ty desc i autoRun needsApproval]
  | none => []

theorem approvalLoop_cons_some (st : Step) (rest : List (Option Step)) (j : Nat) (t : Tracking) :
    approvalLoop (some st :: rest) j t
      = if isInteractiveState st.status = true
           ∧ ¬(st.requestedInteraction = none ∧ payloadFilePermissionRequest st = none)
           ∧ t.emittedInteractions j = false
        then (approvalHeadEvents st j ++ (approvalLoop rest (j + 1)
                { t with emittedInteractions := Function.update t.emittedInteractions j true }).1,
              (approvalLoop rest (j + 1)
                { t with emittedInteractions := Function.update t.emittedInteractions j true }).2)
        else approvalLoop rest (j + 1) t := by
  by_cases h1 : isInteractiveState st.status
  · by_cases h2 : st.requestedInteraction = none ∧ payloadFilePermissionRequest st = none
    · simp [approvalLoop, h1, h2]
    · by_cases h3 : t.emittedInteractions j
      · simp [approvalLoop, h1, h2, h3]
      · rw [if_pos ⟨h1, h2, by simpa using h3⟩]
        rcases hrec : approvalLoop rest (j + 1)
            { t with emittedInteractions := Function.update t.emittedInteractions j true }
          with ⟨evs2, t2⟩
        rcases hreq : st.requestedInteraction with _ | ic
        · rcases hfpr : payloadFilePermissionRequest st with _ | spec
          · exact absurd ⟨hreq, hfpr⟩ h2
          · simp [approvalLoop, approvalHeadEvents, h1, h2, h3, hreq, hfpr, hrec]
        · simp [approvalLoop, approvalHeadEvents, h1, h2, h3, hreq, hrec]
  · rw [if_neg (by simp [h1])]
    simp [approvalLoop, h1]

theorem approvalHeadEvents_singleton (st : Step) (i : Nat)
    (h2 : ¬(st.requestedInteraction = none ∧ payloadFilePermissionRequest st = none)) :
    ∃ ty d a na, approvalHeadEvents st i = [.approvalNeeded ty d i a na] := by
  unfold approvalHeadEvents
  rcases hreq : st.requestedInteraction with _ | ic
  · rcases hfpr : payloadFilePermissionRequest st with _ | spec
    · exact absurd ⟨hreq, hfpr⟩ h2
    · simp only [hreq, hfpr]
      exact ⟨_, _, _, _, rfl⟩
  · simp only [hreq]
    exact ⟨_, _, _, _, rfl⟩

theorem approvalHeadEvents_filter_ne (st : Step) (i x : Nat) (hne : i ≠ x) :
    (approvalHeadEvents st i).filter (isApprovalAt x) = [] := by
  unfold approvalHeadEvents
  rcases st.requestedInteraction with _ | ic
  · rcases payloadFilePermissionRequest st with _ | spec
    · rfl
    · simp [isApprovalAt, hne]
  · simp [isApprovalAt, hne]

theorem approvalLoop_filter_lower :
    ∀ (steps : List (Option Step)) (j : Nat) (t : Tracking) (x : Nat), x < j →
      (approvalLoop steps j t).1.filter (isApprovalAt x) = [] := by
  intro steps
  induction steps with
  | nil => intro j t x _; rfl
  | cons hd rest ih =>
    intro j t x hx
    cases hd with
    | none => simpa [approvalLoop] using ih (j + 1) t x (Nat.lt_succ_of_lt hx)
    | some st =>
      rw [approvalLoop_cons_some]
      split
      · simp only [List.filter_append]
        rw [approvalHeadEvents_filter_ne st j x (Nat.ne_of_lt hx).symm,
          ih (j + 1) _ x (Nat.lt_succ_of_lt hx)]
        rfl
      · exact ih (j + 1) t x (Nat.lt_succ_of_lt hx)

theorem approvalLoop_filter_of_emitted :
    ∀ (steps : List (Option Step)) (j : Nat) (t : Tracking) (x : Nat),
      t.emittedInteractions x = true →
      (approvalLoop steps j t).1.filter (isApprovalAt x) = [] := by
  intro steps
  induction steps with
  | nil => intro j t x _; rfl
  | cons hd rest ih =>
    intro j t x hx
    cases hd with
    | none => simpa [approvalLoop] using ih (j + 1) t x hx
    | some st =>
      rw [approvalLoop_cons_some]
      split
      · next hcond =>
        have hne : j ≠ x := by
          intro h
          rw [h] at hcond
          rw [hx] at hcond
          exact absurd hcond.2.2 (by simp)
        simp only [List.filter_append]
        rw [approvalHeadEvents_filter_ne st j x hne,
          ih (j + 1) _ x (by
            show Function.update t.emittedInteractions j true x = true
            rw [Function.update_noteq (Ne.symm hne)]
            exact hx)]
        rfl
      · exact ih (j + 1) t x hx

theorem approvalLoop_filter_le_one :
    ∀ (steps : List (Option Step)) (j : Nat) (t : Tracking) (x : Nat),
      ((approvalLoop steps j t).1.filter (isApprovalAt x)).length ≤ 1 := by
  intro steps
  induction steps with
  | nil => intro j t x; simp [approvalLoop]
  | cons hd rest ih =>
    intro j t x
    cases hd with
    | none => simpa [approvalLoop] using ih (j + 1) t x
    | some st =>
      rw [approvalLoop_cons_some]
      split
      · next hcond =>
        simp only [List.filter_append, List.length_append]
        rcases eq_or_ne j x with rfl | hne
        · have htail := approvalLoop_filter_of_emitted rest (j + 1)
            { t with emittedInteractions := Function.update t.emittedInteractions j true } j
            (by show Function.update t.emittedInteractions j true j = true; simp)
          rw [htail]
          obtain ⟨ty, d, a, na, hev⟩ := approvalHeadEvents_singleton st j hcond.2.1
          rw [hev]
          simp [isApprovalAt]
        · rw [approvalHeadEvents_filter_ne st j x hne]
          simpa using ih (j + 1) _ x
      · exact ih (j + 1) t x

theorem approvalLoop_filter_pos :
    ∀ (steps : List (Option Step)) (j : Nat) (t : Tracking) (x : Nat),
      1 ≤ ((approvalLoop steps j t).1.filter (isApprovalAt x)).length →
      t.emittedInteractions x = false
      ∧ (approvalLoop steps j t).2.emittedInteractions x = true
      ∧ ∃ k st, steps.get? k = some (some st) ∧ j + k = x
          ∧ isInteractiveState st.status = true
          ∧ ¬(st.requestedInteraction = none ∧ payloadFilePermissionRequest st = none) := by
  intro steps
  induction steps with
  | nil => intro j t x h; simp [approvalLoop] at h
  | cons hd rest ih =>
    intro j t x h
    cases hd with
    | none =>
      have h' : 1 ≤ ((approvalLoop rest (j + 1) t).1.filter (isApprovalAt x)).length := by
        simpa [approvalLoop] using h
      obtain ⟨ha, hb, k, st, hk, hjk, hi, hp⟩ := ih (j + 1) t x h'
      exact ⟨ha, by simpa [approvalLoop] using hb,
        k + 1, st, by simpa using hk, by omega, hi, hp⟩
    | some st =>
      rw [approvalLoop_cons_some] at h ⊢
      split at h
      · next hcond =>
        rcases eq_or_ne j x with rfl | hne
        · rw [if_pos hcond]
          refine ⟨hcond.2.2, ?_, 0, st, by simp, by simp, hcond.1, hcond.2.1⟩
          exact approvalLoop_emitted_mono rest (j + 1) _ j
            (by show Function.update t.emittedInteractions j true j = true; simp)
        · rw [if_pos hcond]
          have h' : 1 ≤ ((approvalLoop rest (j + 1)
              { t with emittedInteractions := Function.update t.emittedInteractions j true }).1.filter
                (isApprovalAt x)).length := by
            rw [List.filter_append, approvalHeadEvents_filter_ne st j x hne] at h
            simpa using h
          obtain ⟨ha, hb, k, st', hk, hjk, hi, hp⟩ := ih (j + 1) _ x h'
          refine ⟨?_, hb, k + 1, st', by simpa using hk, by omega, hi, hp⟩
          have : Function.update t.emittedInteractions j true x = false := ha
          rw [Function.update_noteq (Ne.symm hne)] at this
          exact this
      · next hcond =>
        rw [if_neg hcond]
        obtain ⟨ha, hb, k, st', hk, hjk, hi, hp⟩ := ih (j + 1) t x h
        exact ⟨ha, hb, k + 1, st', by simpa using hk, by omega, hi, hp⟩

theorem emitStatusChange_filter_approval (s : CascadeState) (t : Tracking) (x : Nat) :
    (emitStatusChange s t).1.filter (isApprovalAt x) = [] :=
  List.filter_eq_nil_iff.mpr (fun e he => by
    rcases emitStatusChange_events_shape s t e he with rfl | ⟨a, b, rfl⟩ <;> simp [isApprovalAt])

theorem emitStepEvents_filter_approval (steps : List (Option Step)) (t : Tracking) (x : Nat) :
    (emitStepEvents steps t).1.filter (isApprovalAt x) = [] :=
  List.filter_eq_nil_iff.mpr (fun e he => by
    rcases emitStepEvents_events_shape steps t e he with ⟨j, st, rfl⟩ | ⟨j, a, b, rfl⟩ <;>
      simp [isApprovalAt])

theorem commandOutputLoop_filter_approval (steps : List (Option Step)) (j : Nat) (t : Tracking)
    (x : Nat) : (commandOutputLoop steps j t).1.filter (isApprovalAt x) = [] :=
  List.filter_eq_nil_iff.mpr (fun e he => by
    obtain ⟨d, f, ty, i, rfl⟩ := commandOutputLoop_events_shape steps j t e he
    simp [isApprovalAt])

theorem textDeltasLoop_filter_approval (steps : List (Option Step)) (j : Nat) (t : Tracking)
    (x : Nat) : (textDeltasLoop steps j t).1.filter (isApprovalAt x) = [] :=
  List.filter_eq_nil_iff.mpr (fun e he => by
    rcases textDeltasLoop_events_shape steps j t e he with ⟨d, f, i, rfl⟩ | ⟨d, f, i, rfl⟩ <;>
      simp [isApprovalAt])

/-- Decomposition of one derivation round for approval counting: the only
approval events come from the approval pass, which runs against a tracking
state whose `emittedInteractions` is the input's, and the round's final
`emittedInteractions` is the approval pass's. -/
theorem emitEvents_approval_reduce (s : CascadeState) (t : Tracking) (x : Nat) :
    (s.trajectory = none →
       (emitEvents s t).1.filter (isApprovalAt x) = []
       ∧ (emitEvents s t).2.emittedInteractions x = t.emittedInteractions x)
    ∧ ∀ traj, s.trajectory = some traj →
        ∃ t1a : Tracking, t1a.emittedInteractions = t.emittedInteractions
          ∧ (emitEvents s t).1.filter (isApprovalAt x)
              = ((approvalLoop traj.steps 0 t1a).1.filter (isApprovalAt x))
          ∧ (emitEvents s t).2.emittedInteractions x
              = (approvalLoop traj.steps 0 t1a).2.emittedInteractions x := by
  rcases hsc : emitStatusChange s t with ⟨evs0, t0⟩
  obtain ⟨a, b, hab⟩ : ∃ a b, t0 = { t with lastStatus := a, lastCascadeStatus := b } := by
    obtain ⟨a, b, h'⟩ := emitStatusChange_tracking s t
    rw [hsc] at h'
    exact ⟨a, b, h'⟩
  have hf0 : evs0.filter (isApprovalAt x) = [] := by
    have := emitStatusChange_filter_approval s t x
    rw [hsc] at this
    exact this
  constructor
  · intro htraj
    constructor
    · simp [emitEvents, hsc, htraj, hf0]
    · simp [emitEvents, hsc, htraj, hab]
  · intro traj htraj
    rcases hse : emitStepEvents traj.steps t0 with ⟨evs1, t1a⟩
    obtain ⟨c1, m1, hcm⟩ : ∃ c1 m1, t1a = { t0 with lastStepCount := c1, stepStatusMap := m1 } := by
      obtain ⟨c1, m1, h'⟩ := emitStepEvents_tracking traj.steps t0
      rw [hse] at h'
      exact ⟨c1, m1, h'⟩
    have hf1 : evs1.filter (isApprovalAt x) = [] := by
      have := emitStepEvents_filter_approval traj.steps t0 x
      rw [hse] at this
      exact this
    rcases hap : emitApprovalRequests traj.steps t1a with ⟨evs2, t2a⟩
    have hap' : approvalLoop traj.steps 0 t1a = (evs2, t2a) := hap
    rcases hco : emitCommandOutputDeltas traj.steps t2a with ⟨evs3, t3a⟩
    have hco' : commandOutputLoop traj.steps 0 t2a = (evs3, t3a) := hco
    obtain ⟨f3, g3, hf3⟩ :
        ∃ f3 g3, t3a = { t2a with lastEmittedStdout := f3, lastEmittedStderr := g3 } := by
      obtain ⟨f3, g3, h'⟩ := commandOutputLoop_tracking traj.steps 0 t2a
      rw [hco'] at h'
      exact ⟨f3, g3, h'⟩
    have hfc : evs3.filter (isApprovalAt x) = [] := by
      have := commandOutputLoop_filter_approval traj.steps 0 t2a x
      rw [hco'] at this
      exact this
    rcases htd : emitTextDeltas traj.steps t3a with ⟨evs4, t4a⟩
    have htd' : textDeltasLoop traj.steps 0 t3a = (evs4, t4a) := htd
    obtain ⟨f4, g4, hf4⟩ :
        ∃ f4 g4, t4a = { t3a with lastEmittedText := f4, lastEmittedThinking := g4 } := by
      obtain ⟨f4, g4, h'⟩ := textDeltasLoop_tracking traj.steps 0 t3a
      rw [htd'] at h'
      exact ⟨f4, g4, h'⟩
    have hft : evs4.filter (isApprovalAt x) = [] := by
      have := textDeltasLoop_filter_approval traj.steps 0 t3a x
      rw [htd'] at this
      exact this
    refine ⟨t1a, ?_, ?_, ?_⟩
    · rw [hcm, hab]
    · simp [emitEvents, hsc, htraj, hse, hap, hco, htd, List.filter_append,
        hf0, hf1, hfc, hft, hap']
    · have hres : (emitEvents s t).2 = t4a := by
        simp [emitEvents, hsc, htraj, hse, hap, hco, htd]
      rw [hres, hf4, hf3, hap']

theorem emitEvents_approval_le_one (s : CascadeState) (t : Tracking) (x : Nat) :
    ((emitEvents s t).1.filter (isApprovalAt x)).length ≤ 1 := by
  have hred := emitEvents_approval_reduce s t x
  rcases htraj : s.trajectory with _ | traj
  · rw [(hred.1 htraj).1]
    simp
  · obtain ⟨t1a, he, hf, hm⟩ := hred.2 traj htraj
    rw [hf]
    exact approvalLoop_filter_le_one traj.steps 0 t1a x

theorem runAll_approval_of_emitted :
    ∀ (states : List CascadeState) (t : Tracking) (x : Nat),
      t.emittedInteractions x = true →
      (runAll states t).1.filter (isApprovalAt x) = []
      ∧ (runAll states t).2.emittedInteractions x = true := by
  intro states
  induction states with
  | nil => intro t x hx; exact ⟨rfl, hx⟩
  | cons s rest ih =>
    intro t x hx
    rcases hrd : emitEvents s t with ⟨evs, t1⟩
    have hred := emitEvents_approval_reduce s t x
    have hfe : evs.filter (isApprovalAt x) = [] ∧ t1.emittedInteractions x = true := by
      rcases htraj : s.trajectory with _ | traj
      · have h' := hred.1 htraj
        rw [hrd] at h'
        exact ⟨h'.1, by rw [h'.2]; exact hx⟩
      · obtain ⟨t1a, he, hf, hm⟩ := hred.2 traj htraj
        rw [hrd] at hf hm
        constructor
        · rw [hf]
          exact approvalLoop_filter_of_emitted traj.steps 0 t1a x (by rw [he]; exact hx)
        · rw [hm]
          exact approvalLoop_emitted_mono traj.steps 0 t1a x (by rw [he]; exact hx)
    obtain ⟨ih1, ih2⟩ := ih t1 x hfe.2
    constructor
    · simp [runAll, hrd, List.filter_append, hfe.1, ih1]
    · simpa [runAll, hrd] using ih2

theorem runAll_approval_le_one :
    ∀ (states : List CascadeState) (t : Tracking) (x : Nat),
      ((runAll states t).1.filter (isApprovalAt x)).length ≤ 1 := by
  intro states
  induction states with
  | nil => intro t x; simp [runAll]
  | cons s rest ih =>
    intro t x
    rcases hrd : emitEvents s t with ⟨evs, t1⟩
    have hle : (evs.filter (isApprovalAt x)).length ≤ 1 := by
      have := emitEvents_approval_le_one s t x
      rw [hrd] at this
      exact this
    by_cases hz : (evs.filter (isApprovalAt x)).length = 0
    · have := ih t1 x
      simp [runAll, hrd, List.filter_append]
      omega
    · have hpos : 1 ≤ (evs.filter (isApprovalAt x)).length := by omega
      have hemt : t1.emittedInteractions x = true := by
        have hred := emitEvents_approval_reduce s t x
        rcases htraj : s.trajectory with _ | traj
        · have h' := hred.1 htraj
          rw [hrd] at h'
          rw [h'.1] at hz
          simp at hz
        · obtain ⟨t1a, he, hf, hm⟩ := hred.2 traj htraj
          rw [hrd] at hf hm
          rw [hf] at hpos
          have := approvalLoop_filter_pos traj.steps 0 t1a x hpos
          rw [hm]
          exact this.2.1
      have hrest := (runAll_approval_of_emitted rest t1 x hemt).1
      simp [runAll, hrd, List.filter_append, hrest]
      omega

/-! ## C1: the approval at-most-once guarantee -/

/-- C1: across a whole subscription lifetime (any sequence of projection
snapshots derived from a fresh session), at most one `approval:needed` event
is emitted per step index (first conjunct); and whenever a derivation round
emits one for index `i`, the step at `i` was in an interactive status
({Pending, Running, Waiting}) and carried an interaction payload (tagged case
or inline file permission), the index was not yet in the emitted-approval set,
and the round adds it to the set (second conjunct). -/
theorem c1_approval_at_most_once :
    (∀ (states : List CascadeState) (i : Nat),
        (((runAll states initialTracking).1.filter (isApprovalAt i)).length ≤ 1))
    ∧ (∀ (s : CascadeState) (t : Tracking) (i : Nat),
        1 ≤ ((emitEvents s t).1.filter (isApprovalAt i)).length →
        t.emittedInteractions i = false
        ∧ (emitEvents s t).2.emittedInteractions i = true
        ∧ ∃ traj st, s.trajectory = some traj ∧ traj.steps.get? i = some (some st)
            ∧ isInteractiveState st.status = true
            ∧ (st.requestedInteraction ≠ none ∨ payloadFilePermissionRequest st ≠ none)) := by
  constructor
  · intro states i
    exact runAll_approval_le_one states initialTracking i
  · intro s t i h
    have hred := emitEvents_approval_reduce s t i
    rcases htraj : s.trajectory with _ | traj
    · rw [(hred.1 htraj).1] at h
      simp at h
    · obtain ⟨t1a, he, hf, hm⟩ := hred.2 traj htraj
      rw [hf] at h
      obtain ⟨ha, hb, k, st, hk, hjk, hi, hp⟩ := approvalLoop_filter_pos traj.steps 0 t1a i h
      have hki : k = i := by omega
      subst hki
      refine ⟨by rw [← he]; exact ha, by rw [hm]; exact hb, traj, st, rfl, hk, hi, ?_⟩
      rcases not_and_or.mp hp with h' | h'
      · exact Or.inl h'
      · exact Or.inr h'

/-- Modelled from the spec: a projection holding one step in WAITING status
with a tagged run-command interaction (the wire diff producing it needs the
generated schema absent from the sources). -/
def approvalWitnessState : CascadeState :=
  { status := .unspecified,
    trajectory :=
      some ⟨"", [some { status := .waiting,
                        step := some (.runCommand { commandLine := "make install" }),
                        requestedInteraction := some .runCommand }]⟩ }

/-- Witness for `c1_approval_at_most_once` at a concrete round that emits an
approval for step 0. -/
theorem c1_approval_at_most_once_witness :
    initialTracking.emittedInteractions 0 = false
    ∧ (emitEvents approvalWitnessState initialTracking).2.emittedInteractions 0 = true
    ∧ ∃ traj st, approvalWitnessState.trajectory = some traj
        ∧ traj.steps.get? 0 = some (some st)
        ∧ isInteractiveState st.status = true
        ∧ (st.requestedInteraction ≠ none ∨ payloadFilePermissionRequest st ≠ none) :=
  c1_approval_at_most_once.2 approvalWitnessState initialTracking 0 (by decide)

/-! ### Growth-delta channels (for the concatenation property) -/

/-- The four tracked text/output channels of the deriver. -/
inductive Channel where
  | text | thinking | stdoutCh | stderrCh
deriving DecidableEq, Repr

/-- The current value of a channel on a step, exactly as the deriver reads it
(`plannerResponseText` / `planner.thinking` for planner steps,
`rc.stdout` / `rc.stderr` for run-command steps). -/
def chValue : Channel → Step → Option String
  | .text, st =>
      match st.step with
      | some (.plannerResponse pr) => some (plannerResponseText pr)
      | _ => none
  | .thinking, st =>
      match st.step with
      | some (.plannerResponse pr) => some pr.thinking
      | _ => none
  | .stdoutCh, st => (payloadRunCommand st).map (fun rc => rc.stdout)
  | .stderrCh, st => (payloadRunCommand st).map (fun rc => rc.stderr)

/-- The tracking map of a channel. -/
def chLast : Channel → Tracking → Nat → String
  | .text, t => t.lastEmittedText
  | .thinking, t => t.lastEmittedThinking
  | .stdoutCh, t => t.lastEmittedStdout
  | .stderrCh, t => t.lastEmittedStderr

/-- The delta payload of an event, if the event is the delta event of this
channel at this step index. -/
def chDeltaAt : Channel → Nat → Event → Option String
  | .text, i, .textDelta d _ j => if j == i then some d else none
  | .thinking, i, .thinkingDelta d _ j => if j == i then some d else none
  | .stdoutCh, i, .commandOutput d _ ty j => if ty == "stdout" && j == i then some d else none
  | .stderrCh, i, .commandOutput d _ ty j => if ty == "stderr" && j == i then some d else none
  | _, _, _ => none

/-- Concatenation of a list of strings in order. -/
def concatStrings : List String → String
  | [] => ""
  | s :: rest => s ++ concatStrings rest

/-- Each value extends the previous one by appending a suffix, starting from
`prev` (the "only grows by appending characters" hypothesis). -/
def extendsChain : String → List String → Prop
  | _, [] => True
  | prev, v :: rest => (∃ suffix, v = prev ++ suffix) ∧ extendsChain v rest

theorem string_append_assoc (a b c : String) : (a ++ b) ++ c = a ++ (b ++ c) := by
  apply String.toList_inj.mp
  show ((a ++ b) ++ c).data = (a ++ (b ++ c)).data
  simp [String.data_append]

theorem string_append_empty (a : String) : a ++ "" = a := by
  apply String.toList_inj.mp
  show (a ++ "").data = a.data
  simp [String.data_append]

theorem string_empty_append (a : String) : "" ++ a = a := by
  apply String.toList_inj.mp
  show ("" ++ a).data = a.data
  simp [String.data_append]

theorem string_drop_zero (a : String) : a.drop 0 = a := by
  apply String.toList_inj.mp
  show (a.drop 0).data = a.data
  rw [String.data_drop]
  simp

theorem string_drop_length (a : String) : a.drop a.length = "" := by
  apply String.toList_inj.mp
  show (a.drop a.length).data = ("" : String).data
  rw [String.data_drop]
  rw [show a.length = a.data.length from (String.length_data a).symm]
  simp

theorem string_length_pos_iff (s : String) : 0 < s.length ↔ s ≠ "" := by
  rw [show s.length = s.data.length from (String.length_data s).symm]
  constructor
  · intro h hs
    subst hs
    simp at h
  · intro h
    rcases hd : s.data with _ | ⟨c, cs⟩
    · exact absurd (String.toList_inj.mp (by simpa using hd)) h
    · simp [hd]

theorem append_length_lt_iff (prev suffix : String) :
    prev.length < (prev ++ suffix).length ↔ suffix ≠ "" := by
  rw [String.length_append]
  constructor
  · intro h
    exact (string_length_pos_iff suffix).mp (by omega)
  · intro h
    have := (string_length_pos_iff suffix).mpr h
    omega

theorem concatStrings_append (l1 l2 : List String) :
    concatStrings (l1 ++ l2) = concatStrings l1 ++ concatStrings l2 := by
  induction l1 with
  | nil => simp [concatStrings, string_empty_append]
  | cons s rest ih => simp [concatStrings, ih, string_append_assoc]

theorem extendsChain_getLastD :
    ∀ (vs : List String) (v : String), extendsChain v vs → ∃ s, vs.getLastD v = v ++ s := by
  intro vs
  induction vs with
  | nil => exact fun v _ => ⟨"", (string_append_empty v).symm⟩
  | cons w vs' ih =>
    intro v h
    obtain ⟨⟨s1, hw⟩, hrest⟩ := h
    obtain ⟨s2, hlast⟩ := ih w hrest
    refine ⟨s1 ++ s2, ?_⟩
    rw [List.getLastD_cons, hlast, hw, string_append_assoc]

theorem textDeltasLoop_events_index_shape :
    ∀ (steps : List (Option Step)) (j : Nat) (t : Tracking),
      ∀ e ∈ (textDeltasLoop steps j t).1,
        ∃ d f i, j ≤ i ∧ (e = .textDelta d f i ∨ e = .thinkingDelta d f i) := by
  intro steps
  induction steps with
  | nil => intro j t e he; simp [textDeltasLoop] at he
  | cons hd rest ih =>
    intro j t e he
    have tail : ∀ (t' : Tracking), e ∈ (textDeltasLoop rest (j + 1) t').1 →
        ∃ d f i, j ≤ i ∧ (e = .textDelta d f i ∨ e = .thinkingDelta d f i) := by
      intro t' he'
      obtain ⟨d, f, i, hij, hor⟩ := ih (j + 1) t' e he'
      exact ⟨d, f, i, by omega, hor⟩
    cases hd with
    | none => exact tail t (by simpa [textDeltasLoop] using he)
    | some st =>
      rcases hpl : st.step with _ | pl
      · exact tail t (by simpa [textDeltasLoop, hpl] using he)
      rcases pl with rc | planner | u | nf
      case plannerResponse =>
        by_cases h1 : (plannerResponseText planner).length > (t.lastEmittedText j).length <;>
          by_cases h2 : planner.thinking.length > (t.lastEmittedThinking j).length
        · simp [textDeltasLoop, hpl, h1, h2] at he
          rcases he with rfl | rfl | he
          · exact ⟨_, _, j, le_refl j, Or.inl rfl⟩
          · exact ⟨_, _, j, le_refl j, Or.inr rfl⟩
          · exact tail _ he
        · simp [textDeltasLoop, hpl, h1, h2] at he
          rcases he with rfl | he
          · exact ⟨_, _, j, le_refl j, Or.inl rfl⟩
          · exact tail _ he
        · simp [textDeltasLoop, hpl, h1, h2] at he
          rcases he with rfl | he
          · exact ⟨_, _, j, le_refl j, Or.inr rfl⟩
          · exact tail _ he
        · simp [textDeltasLoop, hpl, h1, h2] at he
          exact tail _ he
      case runCommand => exact tail t (by simpa [textDeltasLoop, hpl] using he)
      case openBrowserUrl => exact tail t (by simpa [textDeltasLoop, hpl] using he)
      case otherCase => exact tail t (by simpa [textDeltasLoop, hpl] using he)

theorem commandOutputLoop_events_index_shape :
    ∀ (steps : List (Option Step)) (j : Nat) (t : Tracking),
      ∀ e ∈ (commandOutputLoop steps j t).1,
        ∃ d f ty i, j ≤ i ∧ e = .commandOutput d f ty i := by
  intro steps
  induction steps with
  | nil => intro j t e he; simp [commandOutputLoop] at he
  | cons hd rest ih =>
    intro j t e he
    have tail : ∀ (t' : Tracking), e ∈ (commandOutputLoop rest (j + 1) t').1 →
        ∃ d f ty i, j ≤ i ∧ e = .commandOutput d f ty i := by
      intro t' he'
      obtain ⟨d, f, ty, i, hij, hor⟩ := ih (j + 1) t' e he'
      exact ⟨d, f, ty, i, by omega, hor⟩
    cases hd with
    | none => exact tail t (by simpa [commandOutputLoop] using he)
    | some st =>
      cases hrc : payloadRunCommand st with
      | none => exact tail t (by simpa [commandOutputLoop, hrc] using he)
      | some rc =>
        by_cases h1 : rc.stdout.length > (t.lastEmittedStdout j).length <;>
          by_cases h2 : rc.stderr.length > (t.lastEmittedStderr j).length
        · simp [commandOutputLoop, hrc, h1, h2] at he
          rcases he with rfl | rfl | he
          · exact ⟨_, _, _, j, le_refl j, rfl⟩
          · exact ⟨_, _, _, j, le_refl j, rfl⟩
          · exact tail _ he
        · simp [commandOutputLoop, hrc, h1, h2] at he
          rcases he with rfl | he
          · exact ⟨_, _, _, j, le_refl j, rfl⟩
          · exact tail _ he
        · simp [commandOutputLoop, hrc, h1, h2] at he
          rcases he with rfl | he
          · exact ⟨_, _, _, j, le_refl j, rfl⟩
          · exact tail _ he
        · simp [commandOutputLoop, hrc, h1, h2] at he
          exact tail _ he

theorem textDeltasLoop_filterMap_nil (steps : List (Option Step)) (j : Nat) (t : Tracking)
    (ch : Channel) (x : Nat) (h : ch = .stdoutCh ∨ ch = .stderrCh ∨ x < j) :
    (textDeltasLoop steps j t).1.filterMap (chDeltaAt ch x) = [] := by
  apply List.filterMap_eq_nil_iff.mpr
  intro e he
  obtain ⟨d, f, i, hij, hor⟩ := textDeltasLoop_events_index_shape steps j t e he
  have hix : ∀ hlt : x < j, i ≠ x := fun hlt => by omega
  rcases hor with rfl | rfl <;> cases ch <;>
    rcases h with h | h | h <;> first
      | (exact absurd h (by decide))
      | (simp [chDeltaAt, hix h])
      | (simp [chDeltaAt])

theorem commandOutputLoop_filterMap_nil (steps : List (Option Step)) (j : Nat) (t : Tracking)
    (ch : Channel) (x : Nat) (h : ch = .text ∨ ch = .thinking ∨ x < j) :
    (commandOutputLoop steps j t).1.filterMap (chDeltaAt ch x) = [] := by
  apply List.filterMap_eq_nil_iff.mpr
  intro e he
  obtain ⟨d, f, ty, i, hij, rfl⟩ := commandOutputLoop_events_index_shape steps j t e he
  have hix : ∀ hlt : x < j, i ≠ x := fun hlt => by omega
  cases ch <;>
    rcases h with h | h | h <;> first
      | (exact absurd h (by decide))
      | (simp [chDeltaAt, hix h])
      | (simp [chDeltaAt])

theorem emitStatusChange_filterMap_nil (s : CascadeState) (t : Tracking) (ch : Channel)
    (x : Nat) : (emitStatusChange s t).1.filterMap (chDeltaAt ch x) = [] := by
  apply List.filterMap_eq_nil_iff.mpr
  intro e he
  rcases emitStatusChange_events_shape s t e he with rfl | ⟨a, b, rfl⟩ <;>
    cases ch <;> simp [chDeltaAt]

theorem emitStepEvents_filterMap_nil (steps : List (Option Step)) (t : Tracking) (ch : Channel)
    (x : Nat) : (emitStepEvents steps t).1.filterMap (chDeltaAt ch x) = [] := by
  apply List.filterMap_eq_nil_iff.mpr
  intro e he
  rcases emitStepEvents_events_shape steps t e he with ⟨j, st, rfl⟩ | ⟨j, a, b, rfl⟩ <;>
    cases ch <;> simp [chDeltaAt]

theorem approvalLoop_filterMap_nil (steps : List (Option Step)) (j : Nat) (t : Tracking)
    (ch : Channel) (x : Nat) : (approvalLoop steps j t).1.filterMap (chDeltaAt ch x) = [] := by
  apply List.filterMap_eq_nil_iff.mpr
  intro e he
  obtain ⟨ty, d, i, a, na, rfl⟩ := approvalLoop_events_shape steps j t e he
  cases ch <;> simp [chDeltaAt]

theorem textDeltasLoop_text_main :
    ∀ (steps : List (Option Step)) (j : Nat) (t : Tracking) (k : Nat) (st : Step)
      (pr : PlannerResponsePayload) (suffix : String),
      steps.get? k = some (some st) →
      st.step = some (.plannerResponse pr) →
      plannerResponseText pr = t.lastEmittedText (j + k) ++ suffix →
      ((textDeltasLoop steps j t).1.filterMap (chDeltaAt .text (j + k))
          = if suffix = "" then [] else [suffix])
      ∧ (textDeltasLoop steps j t).2.lastEmittedText (j + k) = plannerResponseText pr := by
  intro steps
  induction steps with
  | nil => intro j t k st pr suffix h _ _; simp at h
  | cons hd rest ih =>
    intro j t k st pr suffix h hpl hv
    cases k with
    | zero =>
      simp at h
      subst h
      rw [Nat.add_zero] at hv ⊢
      have htail_nil : ∀ t' : Tracking,
          (textDeltasLoop rest (j + 1) t').1.filterMap (chDeltaAt .text j) = [] :=
        fun t' => textDeltasLoop_filterMap_nil rest (j + 1) t' .text j
          (Or.inr (Or.inr (Nat.lt_succ_self j)))
      by_cases hsuf : suffix = ""
      · subst hsuf
        rw [string_append_empty] at hv
        have h1 : ¬ ((plannerResponseText pr).length > (t.lastEmittedText j).length) := by
          rw [hv]
          omega
        by_cases h2 : pr.thinking.length > (t.lastEmittedThinking j).length
        · have hlow := textDeltasLoop_lower rest (j + 1)
            { t with lastEmittedThinking := Function.update t.lastEmittedThinking j pr.thinking }
            j (Nat.lt_succ_self j)
          simp [textDeltasLoop, hpl, h1, h2, chDeltaAt, htail_nil, hlow.1, hv]
        · have hlow := textDeltasLoop_lower rest (j + 1) t j (Nat.lt_succ_self j)
          simp [textDeltasLoop, hpl, h1, h2, chDeltaAt, htail_nil, hlow.1, hv]
      · have h1 : (plannerResponseText pr).length > (t.lastEmittedText j).length := by
          rw [hv]
          exact (append_length_lt_iff _ _).mpr hsuf
        have hdrop : (plannerResponseText pr).drop (t.lastEmittedText j).length = suffix := by
          rw [hv, string_drop_append]
        by_cases h2 : pr.thinking.length > (t.lastEmittedThinking j).length
        · have hlow := textDeltasLoop_lower rest (j + 1)
            { t with lastEmittedText := Function.update t.lastEmittedText j (plannerResponseText pr),
                     lastEmittedThinking := Function.update t.lastEmittedThinking j pr.thinking }
            j (Nat.lt_succ_self j)
          simp [textDeltasLoop, hpl, h1, h2, chDeltaAt, htail_nil, hlow.1, hdrop, hsuf]
        · have hlow := textDeltasLoop_lower rest (j + 1)
            { t with lastEmittedText := Function.update t.lastEmittedText j (plannerResponseText pr) }
            j (Nat.lt_succ_self j)
          simp [textDeltasLoop, hpl, h1, h2, chDeltaAt, htail_nil, hlow.1, hdrop, hsuf]
    | succ k' =>
      have h' : rest.get? k' = some (some st) := by simpa using h
      have harith : j + (k' + 1) = (j + 1) + k' := by omega
      rw [harith] at hv ⊢
      have hxj : (j + 1) + k' ≠ j := by omega
      have hxj' : j ≠ (j + 1) + k' := by omega
      cases hd with
      | none => simpa [textDeltasLoop] using ih (j + 1) t k' st pr suffix h' hpl hv
      | some st0 =>
        rcases hpl0 : st0.step with _ | pl0
        · simpa [textDeltasLoop, hpl0] using ih (j + 1) t k' st pr suffix h' hpl hv
        rcases pl0 with rc | planner0 | u | nf
        case plannerResponse =>
          by_cases h1 : (plannerResponseText planner0).length > (t.lastEmittedText j).length <;>
            by_cases h2 : planner0.thinking.length > (t.lastEmittedThinking j).length
          · have := ih (j + 1)
              { t with lastEmittedText := Function.update t.lastEmittedText j (plannerResponseText planner0),
                       lastEmittedThinking := Function.update t.lastEmittedThinking j planner0.thinking }
              k' st pr suffix h' hpl (by simpa [Function.update_noteq hxj] using hv)
            simpa [textDeltasLoop, hpl0, h1, h2, chDeltaAt, hxj, hxj'] using this
          · have := ih (j + 1)
              { t with lastEmittedText := Function.update t.lastEmittedText j (plannerResponseText planner0) }
              k' st pr suffix h' hpl (by simpa [Function.update_noteq hxj] using hv)
            simpa [textDeltasLoop, hpl0, h1, h2, chDeltaAt, hxj, hxj'] using this
          · have := ih (j + 1)
              { t with lastEmittedThinking := Function.update t.lastEmittedThinking j planner0.thinking }
              k' st pr suffix h' hpl hv
            simpa [textDeltasLoop, hpl0, h1, h2, chDeltaAt, hxj, hxj'] using this
          · have := ih (j + 1) t k' st pr suffix h' hpl hv
            simpa [textDeltasLoop, hpl0, h1, h2, chDeltaAt, hxj, hxj'] using this
        case runCommand =>
          simpa [textDeltasLoop, hpl0] using ih (j + 1) t k' st pr suffix h' hpl hv
        case openBrowserUrl =>
          simpa [textDeltasLoop, hpl0] using ih (j + 1) t k' st pr suffix h' hpl hv
        case otherCase =>
          simpa [textDeltasLoop, hpl0] using ih (j + 1) t k' st pr suffix h' hpl hv

theorem textDeltasLoop_thinking_main :
    ∀ (steps : List (Option Step)) (j : Nat) (t : Tracking) (k : Nat) (st : Step)
      (pr : PlannerResponsePayload) (suffix : String),
      steps.get? k = some (some st) →
      st.step = some (.plannerResponse pr) →
      pr.thinking = t.lastEmittedThinking (j + k) ++ suffix →
      ((textDeltasLoop steps j t).1.filterMap (chDeltaAt .thinking (j + k))
          = if suffix = "" then [] else [suffix])
      ∧ (textDeltasLoop steps j t).2.lastEmittedThinking (j + k) = pr.thinking := by
  intro steps
  induction steps with
  | nil => intro j t k st pr suffix h _ _; simp at h
  | cons hd rest ih =>
    intro j t k st pr suffix h hpl hv
    cases k with
    | zero =>
      simp at h
      subst h
      rw [Nat.add_zero] at hv ⊢
      have htail_nil : ∀ t' : Tracking,
          (textDeltasLoop rest (j + 1) t').1.filterMap (chDeltaAt .thinking j) = [] :=
        fun t' => textDeltasLoop_filterMap_nil rest (j + 1) t' .thinking j
          (Or.inr (Or.inr (Nat.lt_succ_self j)))
      by_cases hsuf : suffix = ""
      · subst hsuf
        rw [string_append_empty] at hv
        have h2 : ¬ (pr.thinking.length > (t.lastEmittedThinking j).length) := by
          rw [hv]
          omega
        by_cases h1 : (plannerResponseText pr).length > (t.lastEmittedText j).length
        · have hlow := textDeltasLoop_lower rest (j + 1)
            { t with lastEmittedText := Function.update t.lastEmittedText j (plannerResponseText pr) }
            j (Nat.lt_succ_self j)
          simp [textDeltasLoop, hpl, h1, h2, chDeltaAt, htail_nil, hlow.2, hv]
        · have hlow := textDeltasLoop_lower rest (j + 1) t j (Nat.lt_succ_self j)
          simp [textDeltasLoop, hpl, h1, h2, chDeltaAt, htail_nil, hlow.2, hv]
      · have h2 : pr.thinking.length > (t.lastEmittedThinking j).length := by
          rw [hv]
          exact (append_length_lt_iff _ _).mpr hsuf
        have hdrop : pr.thinking.drop (t.lastEmittedThinking j).length = suffix := by
          rw [hv, string_drop_append]
        by_cases h1 : (plannerResponseText pr).length > (t.lastEmittedText j).length
        · have hlow := textDeltasLoop_lower rest (j + 1)
            { t with lastEmittedText := Function.update t.lastEmittedText j (plannerResponseText pr),
                     lastEmittedThinking := Function.update t.lastEmittedThinking j pr.thinking }
            j (Nat.lt_succ_self j)
          simp [textDeltasLoop, hpl, h1, h2, chDeltaAt, htail_nil, hlow.2, hdrop, hsuf]
        · have hlow := textDeltasLoop_lower rest (j + 1)
            { t with lastEmittedThinking := Function.update t.lastEmittedThinking j pr.thinking }
            j (Nat.lt_succ_self j)
          simp [textDeltasLoop, hpl, h1, h2, chDeltaAt, htail_nil, hlow.2, hdrop, hsuf]
    | succ k' =>
      have h' : rest.get? k' = some (some st) := by simpa using h
      have harith : j + (k' + 1) = (j + 1) + k' := by omega
      rw [harith] at hv ⊢
      have hxj : (j + 1) + k' ≠ j := by omega
      have hxj' : j ≠ (j + 1) + k' := by omega
      cases hd with
      | none => simpa [textDeltasLoop] using ih (j + 1) t k' st pr suffix h' hpl hv
      | some st0 =>
        rcases hpl0 : st0.step with _ | pl0
        · simpa [textDeltasLoop, hpl0] using ih (j + 1) t k' st pr suffix h' hpl hv
        rcases pl0 with rc | planner0 | u | nf
        case plannerResponse =>
          by_cases h1 : (plannerResponseText planner0).length > (t.lastEmittedText j).length <;>
            by_cases h2 : planner0.thinking.length > (t.lastEmittedThinking j).length
          · have := ih (j + 1)
              { t with lastEmittedText := Function.update t.lastEmittedText j (plannerResponseText planner0),
                       lastEmittedThinking := Function.update t.lastEmittedThinking j planner0.thinking }
              k' st pr suffix h' hpl (by simpa [Function.update_noteq hxj] using hv)
            simpa [textDeltasLoop, hpl0, h1, h2, chDeltaAt, hxj, hxj'] using this
          · have := ih (j + 1)
              { t with lastEmittedText := Function.update t.lastEmittedText j (plannerResponseText planner0) }
              k' st pr suffix h' hpl hv
            simpa [textDeltasLoop, hpl0, h1, h2, chDeltaAt, hxj, hxj'] using this
          · have := ih (j + 1)
              { t with lastEmittedThinking := Function.update t.lastEmittedThinking j planner0.thinking }
              k' st pr suffix h' hpl (by simpa [Function.update_noteq hxj] using hv)
            simpa [textDeltasLoop, hpl0, h1, h2, chDeltaAt, hxj, hxj'] using this
          · have := ih (j + 1) t k' st pr suffix h' hpl hv
            simpa [textDeltasLoop, hpl0, h1, h2, chDeltaAt, hxj, hxj'] using this
        case runCommand =>
          simpa [textDeltasLoop, hpl0] using ih (j + 1) t k' st pr suffix h' hpl hv
        case openBrowserUrl =>
          simpa [textDeltasLoop, hpl0] using ih (j + 1) t k' st pr suffix h' hpl hv
        case otherCase =>
          simpa [textDeltasLoop, hpl0] using ih (j + 1) t k' st pr suffix h' hpl hv

theorem commandOutputLoop_stdout_main :
    ∀ (steps : List (Option Step)) (j : Nat) (t : Tracking) (k : Nat) (st : Step)
      (rc : RunCommandPayload) (suffix : String),
      steps.get? k = some (some st) →
      payloadRunCommand st = some rc →
      rc.stdout = t.lastEmittedStdout (j + k) ++ suffix →
      ((commandOutputLoop steps j t).1.filterMap (chDeltaAt .stdoutCh (j + k))
          = if suffix = "" then [] else [suffix])
      ∧ (commandOutputLoop steps j t).2.lastEmittedStdout (j + k) = rc.stdout := by
  intro steps
  induction steps with
  | nil => intro j t k st rc suffix h _ _; simp at h
  | cons hd rest ih =>
    intro j t k st rc suffix h hrc hv
    cases k with
    | zero =>
      simp at h
      subst h
      rw [Nat.add_zero] at hv ⊢
      have htail_nil : ∀ t' : Tracking,
          (commandOutputLoop rest (j + 1) t').1.filterMap (chDeltaAt .stdoutCh j) = [] :=
        fun t' => commandOutputLoop_filterMap_nil rest (j + 1) t' .stdoutCh j
          (Or.inr (Or.inr (Nat.lt_succ_self j)))
      by_cases hsuf : suffix = ""
      · subst hsuf
        rw [string_append_empty] at hv
        have h1 : ¬ (rc.stdout.length > (t.lastEmittedStdout j).length) := by
          rw [hv]
          omega
        by_cases h2 : rc.stderr.length > (t.lastEmittedStderr j).length
        · have hlow := commandOutputLoop_lower rest (j + 1)
            { t with lastEmittedStderr := Function.update t.lastEmittedStderr j rc.stderr }
            j (Nat.lt_succ_self j)
          simp [commandOutputLoop, hrc, h1, h2, chDeltaAt, htail_nil, hlow.1, hv]
        · have hlow := commandOutputLoop_lower rest (j + 1) t j (Nat.lt_succ_self j)
          simp [commandOutputLoop, hrc, h1, h2, chDeltaAt, htail_nil, hlow.1, hv]
      · have h1 : rc.stdout.length > (t.lastEmittedStdout j).length := by
          rw [hv]
          exact (append_length_lt_iff _ _).mpr hsuf
        have hdrop : rc.stdout.drop (t.lastEmittedStdout j).length = suffix := by
          rw [hv, string_drop_append]
        by_cases h2 : rc.stderr.length > (t.lastEmittedStderr j).length
        · have hlow := commandOutputLoop_lower rest (j + 1)
            { t with lastEmittedStdout := Function.update t.lastEmittedStdout j rc.stdout,
                     lastEmittedStderr := Function.update t.lastEmittedStderr j rc.stderr }
            j (Nat.lt_succ_self j)
          simp [commandOutputLoop, hrc, h1, h2, chDeltaAt, htail_nil, hlow.1, hdrop, hsuf]
        · have hlow := commandOutputLoop_lower rest (j + 1)
            { t with lastEmittedStdout := Function.update t.lastEmittedStdout j rc.stdout }
            j (Nat.lt_succ_self j)
          simp [commandOutputLoop, hrc, h1, h2, chDeltaAt, htail_nil, hlow.1, hdrop, hsuf]
    | succ k' =>
      have h' : rest.get? k' = some (some st) := by simpa using h
      have harith : j + (k' + 1) = (j + 1) + k' := by omega
      rw [harith] at hv ⊢
      have hxj : (j + 1) + k' ≠ j := by omega
      have hxj' : j ≠ (j + 1) + k' := by omega
      cases hd with
      | none => simpa [commandOutputLoop] using ih (j + 1) t k' st rc suffix h' hrc hv
      | some st0 =>
        cases hrc0 : payloadRunCommand st0 with
        | none => simpa [commandOutputLoop, hrc0] using ih (j + 1) t k' st rc suffix h' hrc hv
        | some rc0 =>
          by_cases h1 : rc0.stdout.length > (t.lastEmittedStdout j).length <;>
            by_cases h2 : rc0.stderr.length > (t.lastEmittedStderr j).length
          · have := ih (j + 1)
              { t with lastEmittedStdout := Function.update t.lastEmittedStdout j rc0.stdout,
                       lastEmittedStderr := Function.update t.lastEmittedStderr j rc0.stderr }
              k' st rc suffix h' hrc (by simpa [Function.update_noteq hxj] using hv)
            simpa [commandOutputLoop, hrc0, h1, h2, chDeltaAt, hxj, hxj'] using this
          · have := ih (j + 1)
              { t with lastEmittedStdout := Function.update t.lastEmittedStdout j rc0.stdout }
              k' st rc suffix h' hrc (by simpa [Function.update_noteq hxj] using hv)
            simpa [commandOutputLoop, hrc0, h1, h2, chDeltaAt, hxj, hxj'] using this
          · have := ih (j + 1)
              { t with lastEmittedStderr := Function.update t.lastEmittedStderr j rc0.stderr }
              k' st rc suffix h' hrc hv
            simpa [commandOutputLoop, hrc0, h1, h2, chDeltaAt, hxj, hxj'] using this
          · have := ih (j + 1) t k' st rc suffix h' hrc hv
            simpa [commandOutputLoop, hrc0, h1, h2, chDeltaAt, hxj, hxj'] using this

theorem commandOutputLoop_stderr_main :
    ∀ (steps : List (Option Step)) (j : Nat) (t : Tracking) (k : Nat) (st : Step)
      (rc : RunCommandPayload) (suffix : String),
      steps.get? k = some (some st) →
      payloadRunCommand st = some rc →
      rc.stderr = t.lastEmittedStderr (j + k) ++ suffix →
      ((commandOutputLoop steps j t).1.filterMap (chDeltaAt .stderrCh (j + k))
          = if suffix = "" then [] else [suffix])
      ∧ (commandOutputLoop steps j t).2.lastEmittedStderr (j + k) = rc.stderr := by
  intro steps
  induction steps with
  | nil => intro j t k st rc suffix h _ _; simp at h
  | cons hd rest ih =>
    intro j t k st rc suffix h hrc hv
    cases k with
    | zero =>
      simp at h
      subst h
      rw [Nat.add_zero] at hv ⊢
      have htail_nil : ∀ t' : Tracking,
          (commandOutputLoop rest (j + 1) t').1.filterMap (chDeltaAt .stderrCh j) = [] :=
        fun t' => commandOutputLoop_filterMap_nil rest (j + 1) t' .stderrCh j
          (Or.inr (Or.inr (Nat.lt_succ_self j)))
      by_cases hsuf : suffix = ""
      · subst hsuf
        rw [string_append_empty] at hv
        have h2 : ¬ (rc.stderr.length > (t.lastEmittedStderr j).length) := by
          rw [hv]
          omega
        by_cases h1 : rc.stdout.length > (t.lastEmittedStdout j).length
        · have hlow := commandOutputLoop_lower rest (j + 1)
            { t with lastEmittedStdout := Function.update t.lastEmittedStdout j rc.stdout }
            j (Nat.lt_succ_self j)
          simp [commandOutputLoop, hrc, h1, h2, chDeltaAt, htail_nil, hlow.2, hv]
        · have hlow := commandOutputLoop_lower rest (j + 1) t j (Nat.lt_succ_self j)
          simp [commandOutputLoop, hrc, h1, h2, chDeltaAt, htail_nil, hlow.2, hv]
      · have h2 : rc.stderr.length > (t.lastEmittedStderr j).length := by
          rw [hv]
          exact (append_length_lt_iff _ _).mpr hsuf
        have hdrop : rc.stderr.drop (t.lastEmittedStderr j).length = suffix := by
          rw [hv, string_drop_append]
        by_cases h1 : rc.stdout.length > (t.lastEmittedStdout j).length
        · have hlow := commandOutputLoop_lower rest (j + 1)
            { t with lastEmittedStdout := Function.update t.lastEmittedStdout j rc.stdout,
                     lastEmittedStderr := Function.update t.lastEmittedStderr j rc.stderr }
            j (Nat.lt_succ_self j)
          simp [commandOutputLoop, hrc, h1, h2, chDeltaAt, htail_nil, hlow.2, hdrop, hsuf]
        · have hlow := commandOutputLoop_lower rest (j + 1)
            { t with lastEmittedStderr := Function.update t.lastEmittedStderr j rc.stderr }
            j (Nat.lt_succ_self j)
          simp [commandOutputLoop, hrc, h1, h2, chDeltaAt, htail_nil, hlow.2, hdrop, hsuf]
    | succ k' =>
      have h' : rest.get? k' = some (some st) := by simpa using h
      have harith : j + (k' + 1) = (j + 1) + k' := by omega
      rw [harith] at hv ⊢
      have hxj : (j + 1) + k' ≠ j := by omega
      have hxj' : j ≠ (j + 1) + k' := by omega
      cases hd with
      | none => simpa [commandOutputLoop] using ih (j + 1) t k' st rc suffix h' hrc hv
      | some st0 =>
        cases hrc0 : payloadRunCommand st0 with
        | none => simpa [commandOutputLoop, hrc0] using ih (j + 1) t k' st rc suffix h' hrc hv
        | some rc0 =>
          by_cases h1 : rc0.stdout.length > (t.lastEmittedStdout j).length <;>
            by_cases h2 : rc0.stderr.length > (t.lastEmittedStderr j).length
          · have := ih (j + 1)
              { t with lastEmittedStdout := Function.update t.lastEmittedStdout j rc0.stdout,
                       lastEmittedStderr := Function.update t.lastEmittedStderr j rc0.stderr }
              k' st rc suffix h' hrc (by simpa [Function.update_noteq hxj] using hv)
            simpa [commandOutputLoop, hrc0, h1, h2, chDeltaAt, hxj, hxj'] using this
          · have := ih (j + 1)
              { t with lastEmittedStdout := Function.update t.lastEmittedStdout j rc0.stdout }
              k' st rc suffix h' hrc hv
            simpa [commandOutputLoop, hrc0, h1, h2, chDeltaAt, hxj, hxj'] using this
          · have := ih (j + 1)
              { t with lastEmittedStderr := Function.update t.lastEmittedStderr j rc0.stderr }
              k' st rc suffix h' hrc (by simpa [Function.update_noteq hxj] using hv)
            simpa [commandOutputLoop, hrc0, h1, h2, chDeltaAt, hxj, hxj'] using this
          · have := ih (j + 1) t k' st rc suffix h' hrc hv
            simpa [commandOutputLoop, hrc0, h1, h2, chDeltaAt, hxj, hxj'] using this

theorem chValue_text_inv (st : Step) (v : String) (h : chValue .text st = some v) :
    ∃ pr, st.step = some (.plannerResponse pr) ∧ v = plannerResponseText pr := by
  rcases hpl : st.step with _ | pl
  · simp [chValue, hpl] at h
  rcases pl with rc | pr | u | nf <;> simp [chValue, hpl] at h
  exact ⟨pr, rfl, h.symm⟩

theorem chValue_thinking_inv (st : Step) (v : String) (h : chValue .thinking st = some v) :
    ∃ pr, st.step = some (.plannerResponse pr) ∧ v = pr.thinking := by
  rcases hpl : st.step with _ | pl
  · simp [chValue, hpl] at h
  rcases pl with rc | pr | u | nf <;> simp [chValue, hpl] at h
  exact ⟨pr, rfl, h.symm⟩

theorem chValue_stdout_inv (st : Step) (v : String) (h : chValue .stdoutCh st = some v) :
    ∃ rc, payloadRunCommand st = some rc ∧ v = rc.stdout := by
  rcases hrc : payloadRunCommand st with _ | rc <;> simp [chValue, hrc] at h
  exact ⟨rc, rfl, h.symm⟩

theorem chValue_stderr_inv (st : Step) (v : String) (h : chValue .stderrCh st = some v) :
    ∃ rc, payloadRunCommand st = some rc ∧ v = rc.stderr := by
  rcases hrc : payloadRunCommand st with _ | rc <;> simp [chValue, hrc] at h
  exact ⟨rc, rfl, h.symm⟩

/-- One derivation round for a channel: given the step at index `i` whose
channel value extends the tracked value by `suffix`, the round emits exactly
one delta event carrying `suffix` when the channel grew (none otherwise), and
the tracked value afterwards equals the channel value. -/
theorem emitEvents_channel (ch : Channel) (i : Nat) (s : CascadeState) (t : Tracking)
    (traj : Trajectory) (st : Step) (v suffix : String)
    (htraj : s.trajectory = some traj)
    (hst : traj.steps.get? i = some (some st))
    (hv : chValue ch st = some v)
    (hext : v = chLast ch t i ++ suffix) :
    ((emitEvents s t).1.filterMap (chDeltaAt ch i) = if suffix = "" then [] else [suffix])
    ∧ chLast ch (emitEvents s t).2 i = v := by
  rcases hsc : emitStatusChange s t with ⟨evs0, t0⟩
  obtain ⟨a, b, hab⟩ : ∃ a b, t0 = { t with lastStatus := a, lastCascadeStatus := b } := by
    obtain ⟨a, b, h'⟩ := emitStatusChange_tracking s t
    rw [hsc] at h'
    exact ⟨a, b, h'⟩
  have hn0 : evs0.filterMap (chDeltaAt ch i) = [] := by
    have := emitStatusChange_filterMap_nil s t ch i
    rw [hsc] at this
    exact this
  rcases hse : emitStepEvents traj.steps t0 with ⟨evs1, t1a⟩
  obtain ⟨c1, m1, hcm⟩ : ∃ c1 m1, t1a = { t0 with lastStepCount := c1, stepStatusMap := m1 } := by
    obtain ⟨c1, m1, h'⟩ := emitStepEvents_tracking traj.steps t0
    rw [hse] at h'
    exact ⟨c1, m1, h'⟩
  have hn1 : evs1.filterMap (chDeltaAt ch i) = [] := by
    have := emitStepEvents_filterMap_nil traj.steps t0 ch i
    rw [hse] at this
    exact this
  rcases hap : emitApprovalRequests traj.steps t1a with ⟨evs2, t2a⟩
  have hap' : approvalLoop traj.steps 0 t1a = (evs2, t2a) := hap
  obtain ⟨f2, hf2⟩ : ∃ f2, t2a = { t1a with emittedInteractions := f2 } := by
    obtain ⟨f2, h'⟩ := approvalLoop_tracking traj.steps 0 t1a
    rw [hap'] at h'
    exact ⟨f2, h'⟩
  have hn2 : evs2.filterMap (chDeltaAt ch i) = [] := by
    have := approvalLoop_filterMap_nil traj.steps 0 t1a ch i
    rw [hap'] at this
    exact this
  rcases hco : emitCommandOutputDeltas traj.steps t2a with ⟨evs3, t3a⟩
  have hco' : commandOutputLoop traj.steps 0 t2a = (evs3, t3a) := hco
  obtain ⟨f3, g3, hf3⟩ :
      ∃ f3 g3, t3a = { t2a with lastEmittedStdout := f3, lastEmittedStderr := g3 } := by
    obtain ⟨f3, g3, h'⟩ := commandOutputLoop_tracking traj.steps 0 t2a
    rw [hco'] at h'
    exact ⟨f3, g3, h'⟩
  rcases htd : emitTextDeltas traj.steps t3a with ⟨evs4, t4a⟩
  have htd' : textDeltasLoop traj.steps 0 t3a = (evs4, t4a) := htd
  obtain ⟨f4, g4, hf4⟩ :
      ∃ f4 g4, t4a = { t3a with lastEmittedText := f4, lastEmittedThinking := g4 } := by
    obtain ⟨f4, g4, h'⟩ := textDeltasLoop_tracking traj.steps 0 t3a
    rw [htd'] at h'
    exact ⟨f4, g4, h'⟩
  have hevents : (emitEvents s t).1 = evs0 ++ (evs1 ++ (evs2 ++ (evs3 ++ evs4))) := by
    simp [emitEvents, hsc, htraj, hse, hap, hco, htd]
  have hres : (emitEvents s t).2 = t4a := by
    simp [emitEvents, hsc, htraj, hse, hap, hco, htd]
  rw [hevents, hres]
  simp only [List.filterMap_append, hn0, hn1, hn2, List.nil_append]
  cases ch
  case text =>
    obtain ⟨pr, hpl, rfl⟩ := chValue_text_inv st v hv
    have hn3 : evs3.filterMap (chDeltaAt .text i) = [] := by
      have := commandOutputLoop_filterMap_nil traj.steps 0 t2a .text i (Or.inl rfl)
      rw [hco'] at this
      exact this
    have hlast3 : t3a.lastEmittedText i = t.lastEmittedText i := by
      rw [hf3, hf2, hcm, hab]
    have hmain := textDeltasLoop_text_main traj.steps 0 t3a i st pr suffix
      (by simpa using hst) hpl
      (by simpa [hlast3] using hext)
    rw [htd'] at hmain
    simp only [Nat.zero_add] at hmain
    constructor
    · rw [hn3, List.nil_append]
      exact hmain.1
    · show t4a.lastEmittedText i = plannerResponseText pr
      exact hmain.2
  case thinking =>
    obtain ⟨pr, hpl, rfl⟩ := chValue_thinking_inv st v hv
    have hn3 : evs3.filterMap (chDeltaAt .thinking i) = [] := by
      have := commandOutputLoop_filterMap_nil traj.steps 0 t2a .thinking i (Or.inr (Or.inl rfl))
      rw [hco'] at this
      exact this
    have hlast3 : t3a.lastEmittedThinking i = t.lastEmittedThinking i := by
      rw [hf3, hf2, hcm, hab]
    have hmain := textDeltasLoop_thinking_main traj.steps 0 t3a i st pr suffix
      (by simpa using hst) hpl
      (by simpa [hlast3] using hext)
    rw [htd'] at hmain
    simp only [Nat.zero_add] at hmain
    constructor
    · rw [hn3, List.nil_append]
      exact hmain.1
    · show t4a.lastEmittedThinking i = pr.thinking
      exact hmain.2
  case stdoutCh =>
    obtain ⟨rc, hrc, rfl⟩ := chValue_stdout_inv st v hv
    have hn4 : evs4.filterMap (chDeltaAt .stdoutCh i) = [] := by
      have := textDeltasLoop_filterMap_nil traj.steps 0 t3a .stdoutCh i (Or.inl rfl)
      rw [htd'] at this
      exact this
    have hlast2 : t2a.lastEmittedStdout i = t.lastEmittedStdout i := by
      rw [hf2, hcm, hab]
    have hmain := commandOutputLoop_stdout_main traj.steps 0 t2a i st rc suffix
      (by simpa using hst) hrc
      (by simpa [hlast2] using hext)
    rw [hco'] at hmain
    simp only [Nat.zero_add] at hmain
    constructor
    · rw [hn4, List.append_nil]
      exact hmain.1
    · show t4a.lastEmittedStdout i = rc.stdout
      rw [hf4]
      exact hmain.2
  case stderrCh =>
    obtain ⟨rc, hrc, rfl⟩ := chValue_stderr_inv st v hv
    have hn4 : evs4.filterMap (chDeltaAt .stderrCh i) = [] := by
      have := textDeltasLoop_filterMap_nil traj.steps 0 t3a .stderrCh i (Or.inr (Or.inl rfl))
      rw [htd'] at this
      exact this
    have hlast2 : t2a.lastEmittedStderr i = t.lastEmittedStderr i := by
      rw [hf2, hcm, hab]
    have hmain := commandOutputLoop_stderr_main traj.steps 0 t2a i st rc suffix
      (by simpa using hst) hrc
      (by simpa [hlast2] using hext)
    rw [hco'] at hmain
    simp only [Nat.zero_add] at hmain
    constructor
    · rw [hn4, List.append_nil]
      exact hmain.1
    · show t4a.lastEmittedStderr i = rc.stderr
      rw [hf4]
      exact hmain.2

theorem runAll_channel :
    ∀ (ch : Channel) (i : Nat) (states : List CascadeState) (vs : List String) (t : Tracking),
      List.Forall₂ (fun s v => ∃ traj st, s.trajectory = some traj
          ∧ traj.steps.get? i = some (some st) ∧ chValue ch st = some v) states vs →
      extendsChain (chLast ch t i) vs →
      concatStrings ((runAll states t).1.filterMap (chDeltaAt ch i))
          = (vs.getLastD (chLast ch t i)).drop (chLast ch t i).length
      ∧ chLast ch (runAll states t).2 i = vs.getLastD (chLast ch t i) := by
  intro ch i states vs t hF
  induction hF generalizing t with
  | nil =>
    intro _
    exact ⟨(string_drop_length _).symm, rfl⟩
  | @cons s v states' vs' hrel hFrest ih =>
    intro hext
    obtain ⟨⟨suffix, hsuf⟩, hrest⟩ := hext
    obtain ⟨traj, st, htraj, hst, hv⟩ := hrel
    rcases hrd : emitEvents s t with ⟨evs, t1⟩
    have hround := emitEvents_channel ch i s t traj st v suffix htraj hst hv hsuf
    rw [hrd] at hround
    have hlast1 : chLast ch t1 i = v := hround.2
    have ih' := ih t1 (by rw [hlast1]; exact hrest)
    rw [hlast1] at ih'
    obtain ⟨s', hlastv⟩ := extendsChain_getLastD vs' v hrest
    have hGL : (v :: vs').getLastD (chLast ch t i) = vs'.getLastD v := List.getLastD_cons _ _ _
    have hEv : (runAll (s :: states') t).1 = evs ++ (runAll states' t1).1 := by
      simp [runAll, hrd]
    have hTr : (runAll (s :: states') t).2 = (runAll states' t1).2 := by
      simp [runAll, hrd]
    constructor
    · rw [hEv, hGL, List.filterMap_append, concatStrings_append, hround.1, ih'.1, hlastv]
      subst hsuf
      have hL : ((chLast ch t i ++ suffix) ++ s').drop (chLast ch t i ++ suffix).length = s' :=
        string_drop_append _ _
      have hR : ((chLast ch t i ++ suffix) ++ s').drop (chLast ch t i).length = suffix ++ s' := by
        rw [string_append_assoc]
        exact string_drop_append _ _
      rw [hL, hR]
      by_cases hsufE : suffix = ""
      · subst hsufE
        rw [if_pos rfl]
        rfl
      · rw [if_neg hsufE]
        show (suffix ++ "") ++ s' = suffix ++ s'
        rw [string_append_empty]
    · rw [hTr, hGL]
      exact ih'.2

/-! ## C7: growth-delta concatenation -/

/-- C7: for any diff sequence under which a tracked channel (response text,
thinking, stdout, stderr) of a step only grows by appending characters, the
concatenation, in emission order, of the delta payloads of all delta events
emitted for that (step index, channel) equals the channel's final full value
(first conjunct, from a fresh session); in particular a round whose channel
value equals the already-tracked cumulative value — as after a reconnect
resync — emits zero further delta events for that channel (second conjunct). -/
theorem c7_growth_delta_concatenation :
    (∀ (ch : Channel) (i : Nat) (states : List CascadeState) (vs : List String),
        List.Forall₂ (fun s v => ∃ traj st, s.trajectory = some traj
            ∧ traj.steps.get? i = some (some st) ∧ chValue ch st = some v) states vs →
        extendsChain "" vs →
        concatStrings ((runAll states initialTracking).1.filterMap (chDeltaAt ch i))
          = vs.getLastD "")
    ∧ (∀ (ch : Channel) (i : Nat) (s : CascadeState) (t : Tracking) (traj : Trajectory)
        (st : Step) (v : String),
        s.trajectory = some traj → traj.steps.get? i = some (some st) →
        chValue ch st = some v → chLast ch t i = v →
        (emitEvents s t).1.filterMap (chDeltaAt ch i) = []) := by
  constructor
  · intro ch i states vs hF hext
    have hinit : chLast ch initialTracking i = "" := by cases ch <;> rfl
    have hmain := runAll_channel ch i states vs initialTracking hF (by rw [hinit]; exact hext)
    rw [hinit] at hmain
    rw [hmain.1, show ("" : String).length = 0 from rfl, string_drop_zero]
  · intro ch i s t traj st v htraj hst hv hlast
    have := emitEvents_channel ch i s t traj st v "" htraj hst hv
      (by rw [string_append_empty, hlast])
    simpa using this.1

/-- Modelled from the spec: two successive projection snapshots whose step-0
planner response grows from "ab" to "abcd" (the wire diffs need the generated
schema absent from the sources). -/
def growthStateA : CascadeState :=
  { status := .unspecified,
    trajectory :=
      some ⟨"", [some { status := .running,
                        step := some (.plannerResponse { response := "ab" }) }]⟩ }

/-- Modelled from the spec: the follow-up snapshot with response "abcd". -/
def growthStateB : CascadeState :=
  { status := .unspecified,
    trajectory :=
      some ⟨"", [some { status := .running,
                        step := some (.plannerResponse { response := "abcd" }) }]⟩ }

/-- Witness for `c7_growth_delta_concatenation`: feeding the "ab" then "abcd"
snapshots to a fresh session concatenates the text deltas of step 0 to "abcd",
and a resync round whose value equals the tracked "abcd" emits no further
text delta. -/
theorem c7_growth_delta_concatenation_witness :
    concatStrings ((runAll [growthStateA, growthStateB] initialTracking).1.filterMap
        (chDeltaAt .text 0))
      = (["ab", "abcd"] : List String).getLastD ""
    ∧ (emitEvents growthStateB
        { initialTracking with
            lastEmittedText := Function.update initialTracking.lastEmittedText 0 "abcd" }).1.filterMap
        (chDeltaAt .text 0) = [] :=
  ⟨c7_growth_delta_concatenation.1 .text 0 [growthStateA, growthStateB] ["ab", "abcd"]
    (List.Forall₂.cons
      ⟨⟨"", [some { status := .running, step := some (.plannerResponse { response := "ab" }) }]⟩,
       { status := .running, step := some (.plannerResponse { response := "ab" }) },
       rfl, rfl, rfl⟩
      (List.Forall₂.cons
        ⟨⟨"", [some { status := .running, step := some (.plannerResponse { response := "abcd" }) }]⟩,
         { status := .running, step := some (.plannerResponse { response := "abcd" }) },
         rfl, rfl, rfl⟩
        List.Forall₂.nil))
    ⟨⟨"ab", by decide⟩, ⟨"cd", by decide⟩, trivial⟩,
   c7_growth_delta_concatenation.2 .text 0 growthStateB
    { initialTracking with
        lastEmittedText := Function.update initialTracking.lastEmittedText 0 "abcd" }
    ⟨"", [some { status := .running, step := some (.plannerResponse { response := "abcd" }) }]⟩
    { status := .running, step := some (.plannerResponse { response := "abcd" }) }
    "abcd" rfl rfl rfl (by simp [chLast, initialTracking])⟩

/-! ## C9: the worked example of §8 -/

/-- Modelled from the spec: the projection after the first example diff of §8
(`step0: status=Pending, kind=run-command, commandLine="ls -la"`).  The wire
encoding of the example diffs needs the generated `CascadeState` schema under
`src/gen/`, which is absent from the sources, so each diff is given by the
snapshot it produces. -/
def exampleDiff1State : CascadeState :=
  { status := .unspecified,
    trajectory :=
      some ⟨"", [some { status := .pending,
                        step := some (.runCommand { commandLine := "ls -la" }) }]⟩ }

/-- Modelled from the spec: the projection after the second example diff of §8
(`step0: status=Running`). -/
def exampleDiff2State : CascadeState :=
  { status := .unspecified,
    trajectory :=
      some ⟨"", [some { status := .running,
                        step := some (.runCommand { commandLine := "ls -la" }) }]⟩ }

/-- Modelled from the spec: the projection after the third example diff of §8
(`step0: status=Done, stdout="a\nb\n"`). -/
def exampleDiff3State : CascadeState :=
  { status := .unspecified,
    trajectory :=
      some ⟨"", [some { status := .done,
                        step := some (.runCommand { commandLine := "ls -la",
                                                    stdout := "a\nb\n" }) }]⟩ }

/-- C9: feeding a fresh session the three diffs of the spec's example emits
exactly, in order, `step:new(0, pending)`, `step:update(pending→running)`,
`step:update(running→done)`, `command_output(delta="a\nb\n", stdout, step 0)`,
and no `approval:needed` event. -/
theorem c9_example_sequence :
    (runAll [exampleDiff1State, exampleDiff2State, exampleDiff3State] initialTracking).1
      = [.stepNew 0 "pending",
         .stepUpdate 0 "pending" "running",
         .stepUpdate 0 "running" "done",
         .commandOutput "a\nb\n" "a\nb\n" "stdout" 0]
    ∧ ((runAll [exampleDiff1State, exampleDiff2State, exampleDiff3State]
          initialTracking).1.filter isApprovalEvent) = [] := by
  decide

end AntigravityClient
